import Mathlib

/-!
# calvin::HttpRequest / calvin::HttpResponse (src/http.cc)

A shallow embedding of the request parser `HttpRequest::ParseRequest` and of the three
senders `HttpResponse::SendHtmlResponse`, `HttpResponse::SendResponse` and
`HttpResponse::SendPartialResponse`, followed by theorems about them.

Conventions of the embedding.

* A C `char` is a Lean `Char`, a byte string is a `List Char`.  The code only ever compares
  bytes with NUL, CR, LF and the space, so every statement proved for all `List Char` holds
  in particular for all byte strings.
* `size_t` values are natural numbers reduced modulo `2 ^ 64` where the code computes with
  them; `ssize_t` values are integers.
* The two loops that read input (`while (strstr ...)` and `while (available > 0 ...)`) are
  embedded with a fuel argument.  Running out of fuel is a separate outcome
  (`ParseOutcome.fuelExhausted`, respectively `none`), never confused with a result of the
  code.
-/

namespace calvin

/-! ## Constants -/

/-- The macro of http.cc line 11, `#define BUF_SIZE 4096 * 32`. -/
def BUF_SIZE : Nat := 4096 * 32

/-- Number of values of the 64-bit type `size_t`. -/
def SIZE_MOD : Nat := 2 ^ 64

/-- The constant `std::string::npos`, the largest `size_t`. -/
def npos : Nat := 2 ^ 64 - 1

/-- The needle of the scan, the string literal "\r\n". -/
def CRLF : List Char := ['\r', '\n']

/-! ## Library functions used by the parser -/

/-- The C string stored at the start of `mem`: the bytes before the first NUL.  The end of the
list also ends the string, because the parser stores a NUL right after the received bytes
(`buffer[len] = 0`, line 39). -/
def c_str (mem : List Char) : List Char :=
  mem.takeWhile (fun c => c != '\x00')

/-- Offset of the first occurrence of `needle` in `hay`, if there is one. -/
def firstOccurrence (needle : List Char) : List Char → Option Nat
  | [] => if needle.isEmpty then some 0 else none
  | c :: rest =>
    if needle.isPrefixOf (c :: rest) then some 0
    else (firstOccurrence needle rest).map (fun k => k + 1)

/-- The call `strstr(s, needle)`, as the offset `ptr - s` of the match; `none` is `NULL`. -/
def strstr (s needle : List Char) : Option Nat :=
  firstOccurrence needle (c_str s)

/-- Index of the first `c` in `s` counted from `i`, or `npos`. -/
def findFrom (c : Char) (i : Nat) : List Char → Nat
  | [] => npos
  | x :: xs => if x = c then i else findFrom c (i + 1) xs

/-- The call `s.find_first_of(c, pos)`: the first index `>= pos` holding `c`, or `npos`. -/
def find_first_of (s : List Char) (c : Char) (pos : Nat) : Nat :=
  findFrom c pos (s.drop pos)

/-- The constructor `std::string(str, pos, n)`: the at most `n` characters of `str` from
`pos` on.  It throws `std::out_of_range` when `pos > str.size()`; that is `none`. -/
def substr (str : List Char) (pos n : Nat) : Option (List Char) :=
  if pos > str.length then none else some ((str.drop pos).take n)

/-! ## HttpRequest -/

/-- The arguments of the constructor call of lines 72-73, in its order.  `content_` is the
span of `content_length_` bytes that starts at the pointer `content`. -/
structure HttpRequest where
  method_ : List Char
  request_uri_ : List Char
  http_version_ : List Char
  headers_ : List (List Char)
  content_ : List Char
  content_length_ : Nat
deriving DecidableEq, Repr

/-- What one call `recv(fd, buffer, BUF_SIZE - 1, 0)` did: it failed (negative return value),
or it stored `bytes` at the start of the buffer and returned their number. -/
inductive RecvResult where
  | error
  | ok (bytes : List Char)
deriving DecidableEq, Repr

/-- How a run of `ParseRequest` ends. `null` is the return of `unique_ptr(nullptr)`,
`request` the return of a new `HttpRequest`, `threw` an exception escaping from a string
constructor.  `fuelExhausted` belongs to the embedding only: the loop was cut short. -/
inductive ParseOutcome where
  | fuelExhausted
  | threw
  | null
  | request (r : HttpRequest)
deriving DecidableEq, Repr

/-- Lines 52-73, the branch taken at the blank line: `content` is the offset of the body in
the buffer, `headers` the lines collected so far. -/
def endOfHeader (buffer : List Char) (len : Nat) (content : Nat)
    (headers : List (List Char)) : ParseOutcome :=
  match headers with
  | [] => .null                                        -- headers.size() == 0
  | h0 :: others =>
    let l1 := find_first_of h0 ' ' 0
    match substr h0 0 l1 with                          -- string method(headers[0], 0, l1)
    | none => .threw
    | some method =>
      let p1 := (l1 + 1) % SIZE_MOD
      let l2 := find_first_of h0 ' ' p1
      match substr h0 p1 ((l2 + SIZE_MOD - p1) % SIZE_MOD) with
      | none => .threw
      | some request_uri =>
        match substr h0 ((l2 + 1) % SIZE_MOD) npos with  -- string http_version(headers[0], l2 + 1)
        | none => .threw
        | some http_version =>
          -- headers.erase(headers.begin()) leaves `others`
          let content_length := (((len : Int) - (content : Int)) % (SIZE_MOD : Int)).toNat
          .request
            { method_ := method
              request_uri_ := request_uri
              http_version_ := http_version
              headers_ := others
              content_ := (buffer.drop content).take content_length
              content_length_ := content_length }

/-- The loop of lines 46-77.  `buffer` holds the `len` received bytes, `curr` is the offset
of the pointer `curr`, `headers` the vector of lines collected so far. -/
def parseLoop : Nat → List Char → Nat → Nat → List (List Char) → ParseOutcome
  | 0, _, _, _, _ => .fuelExhausted
  | fuel + 1, buffer, len, curr, headers =>
    match strstr (buffer.drop curr) CRLF with
    | none => .null                                    -- line 78, invalid request
    | some k =>
      let ptr := curr + k
      if ptr > len then .null                          -- line 47, exceeded buffer size
      else if ptr - curr = 0 then endOfHeader buffer len (ptr + 2) headers
      else parseLoop fuel buffer len (ptr + 2) (headers ++ [(buffer.drop curr).take (ptr - curr)])

/-- The function `HttpRequest::ParseRequest(fd, recv)`.  `recv n` is the result of the call
`recv(fd, buffer, n, 0)`.  Every pass of the loop but the last moves `curr` forward, so
`len + 1` passes are always enough (`ParseRequest_total`). -/
def ParseRequest (recv : Nat → RecvResult) : ParseOutcome :=
  match recv (BUF_SIZE - 1) with
  | .error => .null                                    -- len < 0
  | .ok bytes => parseLoop (bytes.length + 1) bytes bytes.length 0 []

/-- The receive function of the tests (http_test.cc lines 19-21), `read(fd, buf, bytes)` on a
file just opened with content `file`: it delivers at most `bytes` bytes from the start. -/
def file_reader (file : List Char) (bytes : Nat) : RecvResult :=
  .ok (file.take bytes)

/-! ## HttpResponse -/

/-- The I/O primitives the senders call, as transitions of a world state `σ`.
`send w buf size` is the call `send_(fd_, buf, size, 0)`: it is given the bytes `buf` known to
lie at the pointer and the count `size`, and yields the return value.  `read w count` is
`read(fd, buffer, count)`: the return value and the bytes stored at the start of the buffer.
`lseek w off` is `lseek64(fd, off, SEEK_SET)`. -/
structure Sys (σ : Type) where
  send : σ → List Char → Nat → Int × σ
  read : σ → Nat → (Int × List Char) × σ
  lseek : σ → Int → σ

/-- The text `operator<<` writes for a `size_t`: its decimal digits. -/
def decimal (n : Nat) : List Char := Nat.toDigits 10 n

/-- The conversion `(size_t)x` of an `ssize_t`. -/
def toSizeT (x : Int) : Nat := (x % (SIZE_MOD : Int)).toNat

/-- The conversion `(ssize_t)x` of a `size_t`. -/
def toSSizeT (x : Nat) : Int :=
  if x % SIZE_MOD < 2 ^ 63 then ((x % SIZE_MOD : Nat) : Int)
  else ((x % SIZE_MOD : Nat) : Int) - (SIZE_MOD : Int)

/-- The subtraction `a - b` of two `size_t`. -/
def subSizeT (a b : Nat) : Nat := (a + SIZE_MOD - b % SIZE_MOD) % SIZE_MOD

/-- The array `buffer` after a read stored `data` at its start; what an earlier read left
behind the new bytes stays there. -/
def store (data buffer : List Char) : List Char := data ++ buffer.drop data.length

/-- The string built in `buf` by lines 87-94 of `SendHtmlResponse`. -/
def htmlResponseText (content : List Char) : List Char :=
  "HTTP/1.0 200 OK\r\n".toList
    ++ "Content-Type:".toList ++ "text/html".toList ++ "\r\n".toList
    ++ "Content-Length:".toList ++ decimal content.length ++ "\r\n".toList
    ++ "Accept-Ranges: bytes".toList ++ "\r\n".toList
    ++ "\r\n".toList
    ++ content

/-- The function `HttpResponse::SendHtmlResponse(content)`: one call of `send_` on the whole
string, the return value of which is dropped. -/
def SendHtmlResponse {σ : Type} (sys : Sys σ) (content : List Char) (w : σ) : σ :=
  let buf := htmlResponseText content
  (sys.send w buf buf.length).2

/-- The string built in `ss` by lines 103-108 of `SendResponse`. -/
def responseHeader (type : List Char) (length : Nat) : List Char :=
  "HTTP/1.0 200 OK\r\n".toList
    ++ "Content-Type: ".toList ++ type ++ "\r\n".toList
    ++ "Content-Length: ".toList ++ decimal length ++ "\r\n".toList
    ++ "Accept-Ranges: bytes\r\n".toList
    ++ "\r\n".toList

/-- The loop of lines 114-121.  `available` and `to_send` are the variables of these names,
`buffer` the known content of the array.  The result is the world and `to_send` when the loop
is left; `none` when the fuel does not reach that far. -/
def sendLoop {σ : Type} (sys : Sys σ) :
    Nat → σ → List Char → Nat → Int → Option (σ × Nat)
  | 0, _, _, _, _ => none
  | fuel + 1, w, buffer, to_send, available =>
    if available > 0 then
      let rd := sys.read w BUF_SIZE                      -- available = read(fd, buffer, BUF_SIZE)
      let available1 := rd.1.1
      let buffer1 := store rd.1.2 buffer
      let sd := sys.send rd.2 buffer1 (toSizeT available1)
      if sd.1 ≠ available1 then some (sd.2, to_send)     -- sent != available: break
      else sendLoop sys fuel sd.2 buffer1 (subSizeT to_send (toSizeT sd.1)) available1
    else some (w, to_send)

/-- The function `HttpResponse::SendResponse(type, fd, length)`, with `fuel` tests of the
loop condition allowed.  Nothing is known of the array `buffer` at the start. -/
def SendResponse {σ : Type} (sys : Sys σ) (fuel : Nat) (type : List Char) (length : Nat)
    (w : σ) : Option (σ × Nat) :=
  let ss := responseHeader type length
  let w1 := (sys.send w ss ss.length).2
  sendLoop sys fuel w1 [] length 1

/-- The string built in `ss` by lines 134-140 of `SendPartialResponse`. -/
def partialHeader (type : List Char) (length start end_ to_send : Nat) : List Char :=
  "HTTP/1.0 206 Partial Content\r\n".toList
    ++ "Content-Type: ".toList ++ type ++ "\r\n".toList
    ++ "Content-Length: ".toList ++ decimal to_send ++ "\r\n".toList
    ++ "Accept-Ranges: bytes\r\n".toList
    ++ "Content-Range: ".toList ++ decimal start ++ "-".toList ++ decimal end_
    ++ "/".toList ++ decimal length ++ "\r\n".toList
    ++ "\r\n".toList

/-- The loop of lines 146-154; here `available` is a `size_t`. -/
def partialLoop {σ : Type} (sys : Sys σ) :
    Nat → σ → List Char → Nat → Nat → Option (σ × Nat)
  | 0, _, _, _, _ => none
  | fuel + 1, w, buffer, to_send, available =>
    if available > 0 ∧ to_send > 0 then
      let rd := sys.read w BUF_SIZE
      let available1 := toSizeT rd.1.1                   -- (size_t)read(fd, buffer, BUF_SIZE)
      let buffer1 := store rd.1.2 buffer
      let sending := if available1 > to_send then to_send else available1
      let sd := sys.send rd.2 buffer1 sending
      if toSizeT sd.1 ≠ sending then some (sd.2, to_send)  -- sent != sending: break
      else partialLoop sys fuel sd.2 buffer1 (subSizeT to_send (toSizeT sd.1)) available1
    else some (w, to_send)

/-- The function `HttpResponse::SendPartialResponse(type, fd, length, start, end)`, with
`fuel` tests of the loop condition allowed. -/
def SendPartialResponse {σ : Type} (sys : Sys σ) (fuel : Nat) (type : List Char)
    (length start end_ : Nat) (w : σ) : Option (σ × Nat) :=
  let to_send := (subSizeT end_ start + 1) % SIZE_MOD    -- end - start + 1
  let ss := partialHeader type length start end_ to_send
  let w1 := (sys.send w ss ss.length).2
  let w2 := sys.lseek w1 (toSSizeT start)
  partialLoop sys fuel w2 [] to_send 1

/-! ## The I/O of the tests: files -/

/-- A source file with the offset of its descriptor, and the destination file. -/
structure FileWorld where
  src : List Char
  pos : Nat
  snk : List Char
deriving DecidableEq, Repr

/-- The send function of the tests (http_test.cc lines 15-17), `write(fd, buf, bytes)` on the
destination file: it takes every byte it is given and appends it to the file. -/
def file_writer (w : FileWorld) (buf : List Char) (bytes : Nat) : Int × FileWorld :=
  ((bytes : Int), { w with snk := w.snk ++ buf.take bytes })

/-- Files as the tests of http_test.cc use them.  `send` is `file_writer`.  `read` delivers
what is left of the source from the offset on, at most `count` bytes and at most `chunk pos`
bytes, and moves the offset; `chunk` lets a read come back short.  A seek to a negative offset
fails and moves nothing. -/
def fileSys (chunk : Nat → Nat) : Sys FileWorld where
  send := file_writer
  read w count :=
    let data := (w.src.drop w.pos).take (min count (chunk w.pos))
    (((data.length : Int), data), { w with pos := w.pos + data.length })
  lseek w off := if off < 0 then w else { w with pos := off.toNat }

/-- One call of a primitive, as seen from outside.  `send bytes size ret`: the call asked to
send `size` bytes and returned `ret`; `bytes` are the first `size` bytes of the known content
of the buffer handed over.  `read count ret data`: the call asked for `count` bytes, returned
`ret` and stored `data`.  `lseek offset`: the call moved the source to `offset`. -/
inductive Event where
  | send (bytes : List Char) (size : Nat) (ret : Int)
  | read (count : Nat) (ret : Int) (data : List Char)
  | lseek (offset : Int)
deriving DecidableEq, Repr

/-- Any I/O behaviour `sys`, with a log of the calls made next to its state. -/
def traced {σ : Type} (sys : Sys σ) : Sys (σ × List Event) where
  send w buf size :=
    let r := sys.send w.1 buf size
    (r.1, (r.2, w.2 ++ [Event.send (buf.take size) size r.1]))
  read w count :=
    let r := sys.read w.1 count
    (r.1, (r.2, w.2 ++ [Event.read count r.1.1 r.1.2]))
  lseek w off := (sys.lseek w.1 off, w.2 ++ [Event.lseek off])

/-! ## The parser without its bound check -/

/-- The loop of lines 46-77 with the check of lines 47-50 (`ptr - buffer > len`) left out.
This is not code of the repository: it is what `parseLoop` is compared with to say that the
check never fires. -/
def parseLoopNoOverflowCheck : Nat → List Char → Nat → Nat → List (List Char) → ParseOutcome
  | 0, _, _, _, _ => .fuelExhausted
  | fuel + 1, buffer, len, curr, headers =>
    match strstr (buffer.drop curr) CRLF with
    | none => .null
    | some k =>
      let ptr := curr + k
      if ptr - curr = 0 then endOfHeader buffer len (ptr + 2) headers
      else parseLoopNoOverflowCheck fuel buffer len (ptr + 2)
        (headers ++ [(buffer.drop curr).take (ptr - curr)])

/-! ## Other behaviours of the I/O, and what a log shows -/

/-- Files for the source as in `fileSys`, and a destination that answers as it likes: call
number `i` of the send function (counted from 0), asked to send `size` bytes `bytes`, returns
`answer i bytes size`. -/
def answerSys (chunk : Nat → Nat) (answer : Nat → List Char → Nat → Int) :
    Sys (FileWorld × Nat) where
  send w buf size := (answer w.2 (buf.take size) size, (w.1, w.2 + 1))
  read w count := (((fileSys chunk).read w.1 count).1, (((fileSys chunk).read w.1 count).2, w.2))
  lseek w off := ((fileSys chunk).lseek w.1 off, w.2)

/-- A source whose reads return what the list says, one entry per call, and 0 once the list is
used up; a destination that takes every byte, and fails with -1 on a count no `ssize_t` can
report. -/
structure ScriptWorld where
  reads : List (Int × List Char)
deriving DecidableEq, Repr

/-- The I/O of a `ScriptWorld`. -/
def scriptSys : Sys ScriptWorld where
  send w _ size := (if size < 2 ^ 63 then (size : Int) else -1, w)
  read w _ :=
    match w.reads with
    | [] => ((0, []), w)
    | r :: rs => (r, { reads := rs })
  lseek w _ := w

/-- The number of bytes the send calls of a log were asked to send. -/
def handed : List Event → Nat
  | [] => 0
  | Event.send _ size _ :: rest => size + handed rest
  | _ :: rest => handed rest

/-- The bytes of those send calls of a log that returned the count they were asked to send. -/
def accepted : List Event → List Char
  | [] => []
  | Event.send bytes size ret :: rest =>
    (if ret = (size : Int) then bytes else []) ++ accepted rest
  | _ :: rest => accepted rest

/-- Whether every send call of a log that returned another count than it was asked to send
is the last call of the log. -/
def stopsAtShortSend : List Event → Bool
  | [] => true
  | Event.send _ size ret :: rest =>
    (decide (ret = (size : Int)) || rest.isEmpty) && stopsAtShortSend rest
  | _ :: rest => stopsAtShortSend rest

/-! ## The scan for CR LF -/

theorem c_str_append_of_no_nul (L rest : List Char) (h : '\x00' ∉ L) :
    c_str (L ++ rest) = L ++ c_str rest := by
  induction L with
  | nil => rfl
  | cons c L ih =>
    have hc : c ≠ '\x00' := fun e => h (e ▸ List.mem_cons_self _ _)
    have hL : '\x00' ∉ L := fun m => h (List.mem_cons_of_mem _ m)
    have ih2 := ih hL
    simp only [c_str] at ih2 ⊢
    simp [List.takeWhile_cons, hc, ih2]

theorem c_str_prefix_self (s : List Char) : c_str s <+: s := by
  unfold c_str
  exact List.takeWhile_prefix _

theorem c_str_append_of_nul (L rest : List Char) (h : '\x00' ∈ L) :
    c_str (L ++ rest) = c_str L := by
  induction L with
  | nil => simp at h
  | cons c L ih =>
    by_cases hc : c = '\x00'
    · subst hc
      simp [c_str, List.takeWhile_cons]
    · have hL : '\x00' ∈ L := by
        rcases List.mem_cons.mp h with e | m
        · exact absurd e.symm hc
        · exact m
      have ih2 := ih hL
      simp only [c_str] at ih2 ⊢
      simp [List.takeWhile_cons, hc, ih2]

theorem firstOccurrence_none (s : List Char) (h : ¬ CRLF <:+: s) :
    firstOccurrence CRLF s = none := by
  induction s with
  | nil => simp [firstOccurrence, CRLF]
  | cons c rest ih =>
    have hrest : ¬ CRLF <:+: rest := fun hi => h (hi.trans (List.suffix_cons c rest).isInfix)
    have hp : CRLF.isPrefixOf (c :: rest) = false := by
      cases hb : CRLF.isPrefixOf (c :: rest) with
      | false => rfl
      | true => exact absurd (List.isPrefixOf_iff_prefix.mp hb).isInfix h
    simp [firstOccurrence, hp, ih hrest]

theorem firstOccurrence_line (L X : List Char) (h : ¬ CRLF <:+: L) :
    firstOccurrence CRLF (L ++ '\r' :: '\n' :: X) = some L.length := by
  induction L with
  | nil => simp [firstOccurrence, CRLF]
  | cons c L ih =>
    have hL : ¬ CRLF <:+: L := fun hi => h (hi.trans (List.suffix_cons c L).isInfix)
    have hp : CRLF.isPrefixOf (c :: (L ++ '\r' :: '\n' :: X)) = false := by
      cases hb : CRLF.isPrefixOf (c :: (L ++ '\r' :: '\n' :: X)) with
      | false => rfl
      | true =>
        exfalso
        cases L with
        | nil => simp [CRLF] at hb
        | cons d L =>
          simp [CRLF] at hb
          apply h
          rw [← hb.1, ← hb.2]
          exact (List.prefix_append ['\r', '\n'] L).isInfix
    simp [firstOccurrence, hp, ih hL]

theorem firstOccurrence_bound (s : List Char) (k : Nat) (h : firstOccurrence CRLF s = some k) :
    k + 2 ≤ s.length := by
  induction s generalizing k with
  | nil => simp [firstOccurrence, CRLF] at h
  | cons c rest ih =>
    unfold firstOccurrence at h
    by_cases hp : CRLF.isPrefixOf (c :: rest) = true
    · rw [if_pos hp] at h
      have hk : k = 0 := by simpa using h.symm
      have hl := (List.isPrefixOf_iff_prefix.mp hp).length_le
      simp [CRLF] at hl
      simp [hk]
      omega
    · rw [if_neg hp] at h
      cases hr : firstOccurrence CRLF rest with
      | none => simp [hr] at h
      | some j =>
        simp [hr] at h
        have := ih j hr
        simp
        omega

theorem strstr_line (L rest : List Char) (hnul : '\x00' ∉ L) (h : ¬ CRLF <:+: L) :
    strstr (L ++ CRLF ++ rest) CRLF = some L.length := by
  unfold strstr
  rw [List.append_assoc, c_str_append_of_no_nul L _ hnul]
  have : c_str (CRLF ++ rest) = '\r' :: '\n' :: c_str rest := by
    simp [c_str, CRLF, List.takeWhile_cons]
  rw [this]
  exact firstOccurrence_line L _ h

theorem strstr_none_of_no_crlf (s : List Char) (h : ¬ CRLF <:+: s) :
    strstr s CRLF = none := by
  unfold strstr
  exact firstOccurrence_none _ (fun hi => h (hi.trans (c_str_prefix_self s).isInfix))

theorem strstr_none_of_nul (L rest : List Char) (hnul : '\x00' ∈ L) (h : ¬ CRLF <:+: L) :
    strstr (L ++ rest) CRLF = none := by
  unfold strstr
  rw [c_str_append_of_nul L rest hnul]
  exact firstOccurrence_none _ (fun hi => h (hi.trans (c_str_prefix_self L).isInfix))

theorem strstr_bound (s : List Char) (k : Nat) (h : strstr s CRLF = some k) :
    k + 2 ≤ s.length := by
  unfold strstr at h
  have h1 := firstOccurrence_bound _ k h
  have h2 := (c_str_prefix_self s).length_le
  omega

/-! ## Cutting the request line -/

theorem findFrom_append (c : Char) (A B : List Char) (i : Nat) (h : c ∉ A) :
    findFrom c i (A ++ c :: B) = i + A.length := by
  induction A generalizing i with
  | nil => simp [findFrom]
  | cons a A ih =>
    have ha : a ≠ c := fun e => h (e ▸ List.mem_cons_self _ _)
    have hA : c ∉ A := fun m => h (List.mem_cons_of_mem _ m)
    simp [findFrom, ha, ih (i + 1) hA]
    omega

theorem findFrom_not_mem (c : Char) (A : List Char) (i : Nat) (h : c ∉ A) :
    findFrom c i A = npos := by
  induction A generalizing i with
  | nil => simp [findFrom]
  | cons a A ih =>
    have ha : a ≠ c := fun e => h (e ▸ List.mem_cons_self _ _)
    have hA : c ∉ A := fun m => h (List.mem_cons_of_mem _ m)
    simp [findFrom, ha, ih (i + 1) hA]

theorem drop_line (A B : List Char) (x : Char) :
    (A ++ x :: B).drop (A.length + 1) = B := by
  have : A ++ x :: B = (A ++ [x]) ++ B := by simp
  rw [this]
  have hl : A.length + 1 = (A ++ [x]).length := by simp
  rw [hl]
  exact List.drop_left _ _

theorem take_line (A B : List Char) : (A ++ B).take A.length = A :=
  List.take_left _ _

/-- The number `(size_t)(len - (content - buffer))` of line 67 when the body starts inside
the received bytes. -/
theorem content_length_eq (len content : Nat) (hc : content ≤ len) (hlen : len < SIZE_MOD) :
    (((len : Int) - (content : Int)) % (SIZE_MOD : Int)).toNat = len - content := by
  have h1 : ((len : Int) - (content : Int)) = ((len - content : Nat) : Int) := by omega
  rw [h1]
  have h2 : (((len - content : Nat) : Int) % (SIZE_MOD : Int)) = ((len - content : Nat) : Int) :=
    Int.emod_eq_of_lt (by omega) (by omega)
  rw [h2]
  simp

/-- The split of lines 58-64 on a line of the form `M U V`. -/
theorem endOfHeader_requestLine (buffer : List Char) (len content : Nat)
    (M U V : List Char) (others : List (List Char))
    (hM : ' ' ∉ M) (hU : ' ' ∉ U)
    (hsize : (M ++ ' ' :: (U ++ ' ' :: V)).length < SIZE_MOD) :
    endOfHeader buffer len content ((M ++ ' ' :: (U ++ ' ' :: V)) :: others) =
      .request
        { method_ := M
          request_uri_ := U
          http_version_ := V
          headers_ := others
          content_ := (buffer.drop content).take
            (((len : Int) - (content : Int)) % (SIZE_MOD : Int)).toNat
          content_length_ := (((len : Int) - (content : Int)) % (SIZE_MOD : Int)).toNat } := by
  simp only [List.length_append, List.length_cons] at hsize
  have hl1 : find_first_of (M ++ ' ' :: (U ++ ' ' :: V)) ' ' 0 = M.length := by
    simp [find_first_of, findFrom_append _ _ _ _ hM]
  have hp1 : (M.length + 1) % SIZE_MOD = M.length + 1 := Nat.mod_eq_of_lt (by omega)
  have hl2 : find_first_of (M ++ ' ' :: (U ++ ' ' :: V)) ' ' (M.length + 1)
      = M.length + 1 + U.length := by
    simp only [find_first_of, drop_line]
    exact findFrom_append _ _ _ _ hU
  have hn : (M.length + 1 + U.length + SIZE_MOD - (M.length + 1)) % SIZE_MOD = U.length := by
    have : M.length + 1 + U.length + SIZE_MOD - (M.length + 1) = U.length + SIZE_MOD := by omega
    rw [this, Nat.add_mod_right]
    exact Nat.mod_eq_of_lt (by omega)
  have hp2 : (M.length + 1 + U.length + 1) % SIZE_MOD = M.length + 1 + U.length + 1 :=
    Nat.mod_eq_of_lt (by omega)
  have hd2 : (M ++ ' ' :: (U ++ ' ' :: V)).drop (M.length + 1 + U.length + 1) = V := by
    rw [show M.length + 1 + U.length + 1 = (M.length + 1) + (U.length + 1) by omega,
      ← List.drop_drop, drop_line, drop_line]
  have hV : V.take npos = V := List.take_of_length_le (by unfold npos SIZE_MOD at *; omega)
  unfold endOfHeader
  simp only [hl1, hp1, hl2, hn, hp2, substr]
  have g1 : ¬ (0 > (M ++ ' ' :: (U ++ ' ' :: V)).length) := by omega
  have g2 : ¬ (M.length + 1 > (M ++ ' ' :: (U ++ ' ' :: V)).length) := by
    simp only [List.length_append, List.length_cons]; omega
  have g3 : ¬ (M.length + 1 + U.length + 1 > (M ++ ' ' :: (U ++ ' ' :: V)).length) := by
    simp only [List.length_append, List.length_cons]; omega
  simp only [g1, g2, g3, if_false, List.drop_zero, take_line, drop_line, hd2, hV]

/-! ## The loop of the parser -/

/-- The loop on a buffer that holds, from `curr` on, the lines `Hs`, each closed by CR LF, then
a blank line: it collects the lines and reaches the end-of-header branch with `content` right
behind the blank line. -/
theorem parseLoop_lines (Hs : List (List Char)) :
    ∀ (fuel : Nat) (buffer pre : List Char) (acc : List (List Char)) (body : List Char),
    (∀ h ∈ Hs, h ≠ [] ∧ '\x00' ∉ h ∧ ¬ CRLF <:+: h) →
    Hs.length < fuel →
    buffer = pre ++ ((Hs.map (fun h => h ++ CRLF)).flatten ++ CRLF ++ body) →
    parseLoop fuel buffer buffer.length pre.length acc
      = endOfHeader buffer buffer.length
          (pre.length + ((Hs.map (fun h => h ++ CRLF)).flatten).length + 2) (acc ++ Hs) := by
  induction Hs with
  | nil =>
    intro fuel buffer pre acc body _ hfuel hbuf
    obtain ⟨f, rfl⟩ : ∃ f, fuel = f + 1 := ⟨fuel - 1, by simp at hfuel; omega⟩
    have hdrop : buffer.drop pre.length = [] ++ CRLF ++ body := by
      rw [hbuf]; simp
    have hs : strstr (buffer.drop pre.length) CRLF = some 0 := by
      rw [hdrop]
      exact strstr_line [] body (by simp) (by simp [CRLF])
    have hlen : ¬ (pre.length + 0 > buffer.length) := by
      rw [hbuf]; simp
    unfold parseLoop
    simp only [hs, hlen, if_false]
    simp
  | cons h t ih =>
    intro fuel buffer pre acc body hall hfuel hbuf
    obtain ⟨f, rfl⟩ : ∃ f, fuel = f + 1 := ⟨fuel - 1, by simp at hfuel; omega⟩
    obtain ⟨hne, hnul, hcr⟩ := hall h (List.mem_cons_self _ _)
    have hbuf2 : buffer = (pre ++ h ++ CRLF) ++
        ((t.map (fun h => h ++ CRLF)).flatten ++ CRLF ++ body) := by
      rw [hbuf]; simp [List.append_assoc]
    have hdrop : buffer.drop pre.length =
        h ++ CRLF ++ ((t.map (fun h => h ++ CRLF)).flatten ++ CRLF ++ body) := by
      rw [hbuf]; simp [List.append_assoc]
    have hs : strstr (buffer.drop pre.length) CRLF = some h.length := by
      rw [hdrop]
      exact strstr_line h _ hnul hcr
    have hlen : ¬ (pre.length + h.length > buffer.length) := by
      rw [hbuf]; simp
    have hpos : ¬ (pre.length + h.length - pre.length = 0) := by
      have : 0 < h.length := List.length_pos.mpr hne
      omega
    have htake : (buffer.drop pre.length).take (pre.length + h.length - pre.length) = h := by
      rw [hdrop, List.append_assoc, Nat.add_sub_cancel_left]
      exact List.take_left _ _
    have hpre : pre.length + h.length + 2 = (pre ++ h ++ CRLF).length := by
      simp [CRLF]; omega
    unfold parseLoop
    simp only [hs, hlen, hpos, if_false, htake]
    rw [hpre, ih f buffer (pre ++ h ++ CRLF) (acc ++ [h]) body
      (fun x hx => hall x (List.mem_cons_of_mem _ hx))
      (by simp at hfuel; omega) hbuf2]
    congr 1
    · simp [CRLF]; omega
    · simp

theorem endOfHeader_ne_fuelExhausted (buffer : List Char) (len content : Nat)
    (headers : List (List Char)) :
    endOfHeader buffer len content headers ≠ .fuelExhausted := by
  unfold endOfHeader
  cases headers with
  | nil => simp
  | cons h0 others =>
    simp only
    split
    · simp
    · split
      · simp
      · split <;> simp

/-- The loop of the parser ends within the fuel whenever the fuel exceeds the number of bytes
behind `curr`. -/
theorem parseLoop_ne_fuelExhausted :
    ∀ (fuel : Nat) (buffer : List Char) (len curr : Nat) (headers : List (List Char)),
    buffer.length - curr < fuel →
    parseLoop fuel buffer len curr headers ≠ .fuelExhausted := by
  intro fuel
  induction fuel with
  | zero => intro buffer len curr headers h; omega
  | succ f ih =>
    intro buffer len curr headers h
    unfold parseLoop
    cases hs : strstr (buffer.drop curr) CRLF with
    | none => simp
    | some k =>
      have hb := strstr_bound _ k hs
      simp only [List.length_drop] at hb
      simp only
      split
      · simp
      · split
        · exact endOfHeader_ne_fuelExhausted _ _ _ _
        · apply ih
          omega

/-- `ParseRequest` always comes to an end: the fuel it gives the loop is never used up. -/
theorem ParseRequest_total (recv : Nat → RecvResult) :
    ParseRequest recv ≠ .fuelExhausted := by
  unfold ParseRequest
  cases recv (BUF_SIZE - 1) with
  | error => simp
  | ok bytes =>
    simp only
    apply parseLoop_ne_fuelExhausted
    omega

/-- Once a first line is in `headers` it stays the first: a request the loop returns comes
from the end-of-header branch run on a vector with the same first line. -/
theorem parseLoop_head (r : HttpRequest) (h0 : List Char) :
    ∀ (fuel : Nat) (buffer : List Char) (len curr : Nat) (acc : List (List Char)),
    parseLoop fuel buffer len curr (h0 :: acc) = .request r →
    ∃ content others, endOfHeader buffer len content (h0 :: others) = .request r := by
  intro fuel
  induction fuel with
  | zero => intro buffer len curr acc h; simp [parseLoop] at h
  | succ f ih =>
    intro buffer len curr acc h
    unfold parseLoop at h
    cases hs : strstr (buffer.drop curr) CRLF with
    | none => simp [hs] at h
    | some k =>
      simp only [hs] at h
      split at h
      · simp at h
      · split at h
        · exact ⟨_, _, h⟩
        · exact ih _ _ _ _ h

/-! ## The parser on whole inputs -/

theorem length_le_flatten_lines (Hs : List (List Char)) :
    Hs.length ≤ ((Hs.map (fun h => h ++ CRLF)).flatten).length := by
  induction Hs with
  | nil => simp
  | cons h t ih => simp [CRLF] at ih ⊢; omega

/-- The parser on a request line `M U V`, header lines `Hs`, a blank line and a body. -/
theorem ParseRequest_wellformed (recv : Nat → RecvResult) (M U V : List Char)
    (Hs : List (List Char)) (body : List Char)
    (hM : ' ' ∉ M) (hU : ' ' ∉ U)
    (hnul : '\x00' ∉ M ++ ' ' :: (U ++ ' ' :: V))
    (hcr : ¬ CRLF <:+: M ++ ' ' :: (U ++ ' ' :: V))
    (hHs : ∀ h ∈ Hs, h ≠ [] ∧ '\x00' ∉ h ∧ ¬ CRLF <:+: h)
    (hrecv : recv (BUF_SIZE - 1) = .ok ((M ++ ' ' :: (U ++ ' ' :: V)) ++ CRLF
      ++ (Hs.map (fun h => h ++ CRLF)).flatten ++ CRLF ++ body))
    (hlen : ((M ++ ' ' :: (U ++ ' ' :: V)) ++ CRLF
      ++ (Hs.map (fun h => h ++ CRLF)).flatten ++ CRLF ++ body).length ≤ BUF_SIZE - 1) :
    ParseRequest recv = .request
      { method_ := M
        request_uri_ := U
        http_version_ := V
        headers_ := Hs
        content_ := body
        content_length_ := body.length } := by
  have hall : ∀ h ∈ (M ++ ' ' :: (U ++ ' ' :: V)) :: Hs, h ≠ [] ∧ '\x00' ∉ h ∧ ¬ CRLF <:+: h := by
    intro h hh
    rcases List.mem_cons.mp hh with e | m
    · subst e
      exact ⟨by simp, hnul, hcr⟩
    · exact hHs h m
  have hcount := length_le_flatten_lines ((M ++ ' ' :: (U ++ ' ' :: V)) :: Hs)
  obtain ⟨hd, hhd⟩ : ∃ hd, hd = (((M ++ ' ' :: (U ++ ' ' :: V)) :: Hs).map
      (fun h => h ++ CRLF)).flatten := ⟨_, rfl⟩
  obtain ⟨input, hin⟩ : ∃ input, input = (M ++ ' ' :: (U ++ ' ' :: V)) ++ CRLF
      ++ (Hs.map (fun h => h ++ CRLF)).flatten ++ CRLF ++ body := ⟨_, rfl⟩
  have hbuf : input = [] ++ (hd ++ CRLF ++ body) := by
    rw [hin, hhd]; simp [List.append_assoc]
  have hbuf2 : input = (hd ++ CRLF) ++ body := by
    rw [hbuf]; simp [List.append_assoc]
  have hil : input.length = hd.length + 2 + body.length := by
    rw [hbuf2]; simp [CRLF]; omega
  have hLl : (M ++ ' ' :: (U ++ ' ' :: V)).length ≤ hd.length := by
    rw [hhd]; simp
  rw [← hin] at hrecv hlen
  rw [← hhd] at hcount
  simp only [BUF_SIZE] at hlen
  unfold ParseRequest
  rw [hrecv]
  simp only
  have key := parseLoop_lines ((M ++ ' ' :: (U ++ ' ' :: V)) :: Hs) (input.length + 1) input
    [] [] body hall (by omega) (by rw [hbuf, hhd])
  rw [← hhd] at key
  simp only [List.length_nil, List.nil_append, Nat.zero_add] at key
  rw [key, endOfHeader_requestLine _ _ _ M U V Hs hM hU (by simp only [SIZE_MOD]; omega),
    content_length_eq _ _ (by omega) (by simp only [SIZE_MOD]; omega)]
  have hdrop : input.drop (hd.length + 2) = body := by
    have l : hd.length + 2 = (hd ++ CRLF).length := by simp [CRLF]
    rw [l, hbuf2]
    exact List.drop_left _ _
  have hsub : input.length - (hd.length + 2) = body.length := by omega
  rw [hdrop, hsub, List.take_length]

/-- A successful parse cut method, URI and version out of the first line of the input. -/
theorem ParseRequest_firstLine (recv : Nat → RecvResult) (d L rest : List Char)
    (r : HttpRequest) (hrecv : recv (BUF_SIZE - 1) = .ok d)
    (hd : d = L ++ CRLF ++ rest) (hL : ¬ CRLF <:+: L)
    (hok : ParseRequest recv = .request r) :
    ∃ content others, endOfHeader d d.length content (L :: others) = .request r := by
  unfold ParseRequest at hok
  rw [hrecv] at hok
  simp only at hok
  unfold parseLoop at hok
  rw [List.drop_zero] at hok
  by_cases hnul : '\x00' ∈ L
  · have hs : strstr d CRLF = none := by
      rw [hd, List.append_assoc]
      exact strstr_none_of_nul L _ hnul hL
    rw [hs] at hok
    simp at hok
  · have hs : strstr d CRLF = some L.length := by
      rw [hd]
      exact strstr_line L rest hnul hL
    rw [hs] at hok
    simp only at hok
    split at hok
    · simp at hok
    · split at hok
      · simp [endOfHeader] at hok
      · have ht : d.take (0 + L.length - 0) = L := by
          rw [hd, List.append_assoc]
          simp
        rw [ht] at hok
        exact parseLoop_head r L _ _ _ _ _ hok

theorem exists_two_spaces (L : List Char) (h : 2 ≤ L.count ' ') :
    ∃ a b v, L = a ++ ' ' :: (b ++ ' ' :: v) ∧ ' ' ∉ a ∧ ' ' ∉ b := by
  have h1 : ' ' ∈ L := List.count_pos_iff.mp (by omega)
  obtain ⟨a, t, rfl, ha⟩ := List.eq_append_cons_of_mem h1
  have hc : 1 ≤ t.count ' ' := by
    rw [List.count_append, List.count_cons_self, List.count_eq_zero_of_not_mem ha] at h
    omega
  have h2 : ' ' ∈ t := List.count_pos_iff.mp (by omega)
  obtain ⟨b, v, rfl, hb⟩ := List.eq_append_cons_of_mem h2
  exact ⟨a, b, v, rfl, ha, hb⟩

theorem takeWhile_until (c : Char) (a rest : List Char) (h : c ∉ a) :
    (a ++ c :: rest).takeWhile (fun x => x != c) = a := by
  induction a with
  | nil => simp [List.takeWhile_cons]
  | cons x a ih =>
    have hx : x ≠ c := fun e => h (e ▸ List.mem_cons_self _ _)
    have ha : c ∉ a := fun m => h (List.mem_cons_of_mem _ m)
    simp [List.takeWhile_cons, hx, ih ha]

theorem dropWhile_until (c : Char) (a rest : List Char) (h : c ∉ a) :
    (a ++ c :: rest).dropWhile (fun x => x != c) = c :: rest := by
  induction a with
  | nil => simp [List.dropWhile_cons]
  | cons x a ih =>
    have hx : x ≠ c := fun e => h (e ▸ List.mem_cons_self _ _)
    have ha : c ∉ a := fun m => h (List.mem_cons_of_mem _ m)
    simp [List.dropWhile_cons, hx, ih ha]

/-! ## Decimal digits -/

theorem digitChar_isDigit (m : Nat) (hm : m < 10) : (Nat.digitChar m).isDigit = true := by
  interval_cases m <;> decide

theorem toDigitsCore_isDigit (fuel : Nat) :
    ∀ (n : Nat) (acc : List Char), (∀ c ∈ acc, c.isDigit = true) →
    ∀ c ∈ Nat.toDigitsCore 10 fuel n acc, c.isDigit = true := by
  induction fuel with
  | zero => intro n acc hacc c hc; rw [Nat.toDigitsCore] at hc; exact hacc c hc
  | succ f ih =>
    intro n acc hacc c hc
    rw [Nat.toDigitsCore] at hc
    have hcons : ∀ x ∈ Nat.digitChar (n % 10) :: acc, x.isDigit = true := by
      intro x hx
      rcases List.mem_cons.mp hx with e | m
      · rw [e]; exact digitChar_isDigit _ (Nat.mod_lt _ (by omega))
      · exact hacc x m
    split at hc
    · exact hcons c hc
    · exact ih _ _ hcons c hc

/-- The text written for a number holds decimal digits only. -/
theorem decimal_isDigit (n : Nat) : ∀ c ∈ decimal n, c.isDigit = true := by
  unfold decimal Nat.toDigits
  exact toDigitsCore_isDigit _ _ _ (by simp)

theorem not_crlf_of_no_cr (l : List Char) (h : '\r' ∉ l) : ¬ CRLF <:+: l := by
  intro hi
  exact h (hi.subset (by simp [CRLF]))

/-! ## The senders on files -/

theorem toSizeT_natCast (n : Nat) (h : n < SIZE_MOD) : toSizeT (n : Int) = n := by
  unfold toSizeT
  rw [Int.emod_eq_of_lt (by omega) (by exact_mod_cast h)]
  simp

theorem subSizeT_of_le (a b : Nat) (hb : b ≤ a) (ha : a < SIZE_MOD) :
    subSizeT a b = a - b := by
  unfold subSizeT
  rw [Nat.mod_eq_of_lt (show b < SIZE_MOD by omega)]
  have : a + SIZE_MOD - b = (a - b) + SIZE_MOD := by omega
  rw [this, Nat.add_mod_right]
  exact Nat.mod_eq_of_lt (by omega)

theorem store_take (data buffer : List Char) (n : Nat) (h : n ≤ data.length) :
    (store data buffer).take n = data.take n := by
  unfold store
  exact List.take_append_of_le_length h

theorem take_append_drop_length (m : Nat) (l : List Char) :
    l.take m ++ l.drop (l.take m).length = l := by
  rw [List.length_take]
  rcases Nat.le_total m l.length with h | h
  · rw [Nat.min_eq_left h]
    exact List.take_append_drop m l
  · rw [Nat.min_eq_right h, List.take_of_length_le h, List.drop_length]
    simp

/-- One pass of the loop of `SendResponse` on files: what the read delivers is appended to the
destination. -/
theorem sendLoop_file_step (chunk : Nat → Nat) (s : List Char) (f pos : Nat)
    (snk buffer : List Char) (to_send : Nat) (available : Int) (h : 0 < available) :
    sendLoop (fileSys chunk) (f + 1) ⟨s, pos, snk⟩ buffer to_send available
      = sendLoop (fileSys chunk) f
          ⟨s, pos + ((s.drop pos).take (min BUF_SIZE (chunk pos))).length,
            snk ++ (s.drop pos).take (min BUF_SIZE (chunk pos))⟩
          (store ((s.drop pos).take (min BUF_SIZE (chunk pos))) buffer)
          (subSizeT to_send ((s.drop pos).take (min BUF_SIZE (chunk pos))).length)
          (((s.drop pos).take (min BUF_SIZE (chunk pos))).length : Int) := by
  obtain ⟨data, hdata⟩ : ∃ data, data = (s.drop pos).take (min BUF_SIZE (chunk pos)) := ⟨_, rfl⟩
  have hn : data.length < SIZE_MOD := by
    have : data.length ≤ BUF_SIZE := by
      rw [hdata, List.length_take]; omega
    simp only [BUF_SIZE] at this
    simp only [SIZE_MOD]
    omega
  rw [← hdata]
  have h1 : toSizeT (data.length : Int) = data.length := toSizeT_natCast _ hn
  have h2 : (store data buffer).take data.length = data := by
    rw [store_take _ _ _ (Nat.le_refl _), List.take_length]
  rw [sendLoop]
  simp only [fileSys, file_writer, if_pos h, ← hdata, h1, h2, ne_eq, not_true_eq_false, if_false]

/-- The loop of `SendResponse` on files copies all that is left of the source. -/
theorem sendLoop_file (chunk : Nat → Nat) (hchunk : ∀ p, 0 < chunk p) (s : List Char) :
    ∀ (fuel pos : Nat) (snk buffer : List Char) (to_send : Nat) (available : Int),
    0 < available → pos ≤ s.length → s.length - pos + 2 ≤ fuel →
    ∃ ts, sendLoop (fileSys chunk) fuel ⟨s, pos, snk⟩ buffer to_send available
      = some (⟨s, s.length, snk ++ s.drop pos⟩, ts) := by
  intro fuel
  induction fuel with
  | zero => intro pos snk buffer to_send available _ _ h; omega
  | succ f ih =>
    intro pos snk buffer to_send available hav hpos hfuel
    rw [sendLoop_file_step chunk s f pos snk buffer to_send available hav]
    obtain ⟨data, hdata⟩ : ∃ data, data = (s.drop pos).take (min BUF_SIZE (chunk pos)) :=
      ⟨_, rfl⟩
    rw [← hdata]
    have hlen : data.length = min (min BUF_SIZE (chunk pos)) (s.length - pos) := by
      rw [hdata, List.length_take, List.length_drop]
    have hc := hchunk pos
    have hB : 0 < BUF_SIZE := by decide
    by_cases h0 : data.length = 0
    · -- the source is used up: the next test of the loop condition fails
      have hend : pos = s.length := by omega
      have hnil : data = [] := List.length_eq_zero.mp h0
      obtain ⟨g, rfl⟩ : ∃ g, f = g + 1 := ⟨f - 1, by omega⟩
      refine ⟨subSizeT to_send data.length, ?_⟩
      rw [sendLoop, h0]
      simp only [Int.natCast_zero, Nat.cast_zero, lt_self_iff_false, gt_iff_lt, if_false]
      rw [hnil, hend]
      simp
    · obtain ⟨ts, hts⟩ := ih (pos + data.length) (snk ++ data) (store data buffer)
        (subSizeT to_send data.length) (data.length : Int)
        (by exact_mod_cast Nat.pos_of_ne_zero h0) (by omega) (by omega)
      refine ⟨ts, ?_⟩
      rw [hts]
      have hsplit : data ++ s.drop (pos + data.length) = s.drop pos := by
        rw [← List.drop_drop, hdata]
        exact take_append_drop_length _ _
      rw [List.append_assoc, hsplit]

/-- `SendResponse` on files: the header block, then the whole source. -/
theorem SendResponse_file (chunk : Nat → Nat) (hchunk : ∀ p, 0 < chunk p)
    (type s snk : List Char) (length fuel : Nat) (hfuel : s.length + 2 ≤ fuel) :
    ∃ ts, SendResponse (fileSys chunk) fuel type length ⟨s, 0, snk⟩
      = some (⟨s, s.length, snk ++ responseHeader type length ++ s⟩, ts) := by
  unfold SendResponse
  obtain ⟨ts, hts⟩ := sendLoop_file chunk hchunk s fuel 0
    (snk ++ (responseHeader type length).take (responseHeader type length).length) []
    length 1 (by decide) (by omega) (by omega)
  refine ⟨ts, ?_⟩
  simp only [fileSys, file_writer] at hts ⊢
  rw [hts]
  simp

theorem take_take_length (L : List Char) (m k : Nat) (hk : k ≤ (L.take m).length) :
    (L.take m).take k = L.take k := by
  rw [List.take_take]
  rw [List.length_take] at hk
  congr 1
  omega

/-- One pass of the loop of `SendPartialResponse` on files: of what the read delivers, the
first `to_send` bytes at most are appended to the destination. -/
theorem partialLoop_file_step (chunk : Nat → Nat) (s : List Char) (f pos : Nat)
    (snk buffer : List Char) (to_send available : Nat)
    (hav : 0 < available) (hts : 0 < to_send) (hlt : to_send < SIZE_MOD) :
    partialLoop (fileSys chunk) (f + 1) ⟨s, pos, snk⟩ buffer to_send available
      = partialLoop (fileSys chunk) f
          ⟨s, pos + ((s.drop pos).take (min BUF_SIZE (chunk pos))).length,
            snk ++ (s.drop pos).take
              (min ((s.drop pos).take (min BUF_SIZE (chunk pos))).length to_send)⟩
          (store ((s.drop pos).take (min BUF_SIZE (chunk pos))) buffer)
          (to_send - min ((s.drop pos).take (min BUF_SIZE (chunk pos))).length to_send)
          ((s.drop pos).take (min BUF_SIZE (chunk pos))).length := by
  obtain ⟨data, hdata⟩ : ∃ data, data = (s.drop pos).take (min BUF_SIZE (chunk pos)) := ⟨_, rfl⟩
  have hn : data.length < SIZE_MOD := by
    have : data.length ≤ BUF_SIZE := by
      rw [hdata, List.length_take]; omega
    simp only [BUF_SIZE] at this
    simp only [SIZE_MOD]
    omega
  have htk : (s.drop pos).take (min data.length to_send) = data.take (min data.length to_send) := by
    rw [hdata]
    exact (take_take_length _ _ _ (by omega)).symm
  rw [← hdata, htk]
  have h1 : toSizeT (data.length : Int) = data.length := toSizeT_natCast _ hn
  have hsend : (if data.length > to_send then to_send else data.length)
      = min data.length to_send := by
    split <;> omega
  have h2 : toSizeT ((min data.length to_send : Nat) : Int) = min data.length to_send :=
    toSizeT_natCast _ (by omega)
  have h3 : (store data buffer).take (min data.length to_send)
      = data.take (min data.length to_send) := store_take _ _ _ (by omega)
  have h4 : subSizeT to_send (min data.length to_send) = to_send - min data.length to_send :=
    subSizeT_of_le _ _ (by omega) hlt
  rw [partialLoop]
  simp only [fileSys, file_writer, hav, hts, and_self, if_true, ← hdata, h1, hsend, h2, h3, h4, ne_eq,
    not_true_eq_false, if_false, gt_iff_lt]

/-- The loop of `SendPartialResponse` on files copies the next `to_send` bytes of the source
and leaves nothing unsent. -/
theorem partialLoop_file (chunk : Nat → Nat) (hchunk : ∀ p, 0 < chunk p) (s : List Char) :
    ∀ (fuel pos : Nat) (snk buffer : List Char) (to_send available : Nat),
    0 < available → pos + to_send ≤ s.length → to_send < SIZE_MOD → to_send + 1 ≤ fuel →
    ∃ pos2, partialLoop (fileSys chunk) fuel ⟨s, pos, snk⟩ buffer to_send available
      = some (⟨s, pos2, snk ++ (s.drop pos).take to_send⟩, 0) := by
  intro fuel
  induction fuel with
  | zero => intro pos snk buffer to_send available _ _ _ h; omega
  | succ f ih =>
    intro pos snk buffer to_send available hav hpos hlt hfuel
    by_cases hts : to_send = 0
    · subst hts
      refine ⟨pos, ?_⟩
      rw [partialLoop]
      simp
    · have hts2 : 0 < to_send := Nat.pos_of_ne_zero hts
      rw [partialLoop_file_step chunk s f pos snk buffer to_send available hav hts2 hlt]
      obtain ⟨n, hn⟩ : ∃ n, n = ((s.drop pos).take (min BUF_SIZE (chunk pos))).length :=
        ⟨_, rfl⟩
      rw [← hn]
      have hlen : n = min (min BUF_SIZE (chunk pos)) (s.length - pos) := by
        rw [hn, List.length_take, List.length_drop]
      have hc := hchunk pos
      have hB : 0 < BUF_SIZE := by decide
      obtain ⟨pos2, h2⟩ := ih (pos + n) (snk ++ (s.drop pos).take (min n to_send))
        (store ((s.drop pos).take (min BUF_SIZE (chunk pos))) buffer)
        (to_send - min n to_send) n (by omega) (by omega) (by omega) (by omega)
      refine ⟨pos2, ?_⟩
      rw [h2]
      have hsplit : (s.drop pos).take (min n to_send)
          ++ (s.drop (pos + n)).take (to_send - min n to_send) = (s.drop pos).take to_send := by
        have e : to_send = min n to_send + (to_send - min n to_send) := by omega
        conv_rhs => rw [e, List.take_add, List.drop_drop]
        by_cases hc2 : n ≤ to_send
        · rw [Nat.min_eq_left hc2]
        · have z : to_send - min n to_send = 0 := by omega
          rw [z]
          simp
      rw [List.append_assoc, hsplit]

/-- `SendPartialResponse` on files: the header block, then the bytes `start .. end_` of the
source, and nothing is left to send. -/
theorem SendPartialResponse_file (chunk : Nat → Nat) (hchunk : ∀ p, 0 < chunk p)
    (type s snk : List Char) (pos length start end_ fuel : Nat)
    (hse : start ≤ end_) (hend : end_ < s.length) (hsize : s.length < 2 ^ 63)
    (hfuel : end_ - start + 2 ≤ fuel) :
    ∃ pos2, SendPartialResponse (fileSys chunk) fuel type length start end_ ⟨s, pos, snk⟩
      = some (⟨s, pos2, snk ++ partialHeader type length start end_ (end_ - start + 1)
          ++ (s.drop start).take (end_ - start + 1)⟩, 0) := by
  have hsub : subSizeT end_ start = end_ - start :=
    subSizeT_of_le _ _ hse (by simp only [SIZE_MOD]; omega)
  have hto : (subSizeT end_ start + 1) % SIZE_MOD = end_ - start + 1 := by
    rw [hsub]
    exact Nat.mod_eq_of_lt (by simp only [SIZE_MOD]; omega)
  have hoff : toSSizeT start = (start : Int) := by
    unfold toSSizeT
    have hm : start % SIZE_MOD = start := Nat.mod_eq_of_lt (by simp only [SIZE_MOD]; omega)
    rw [hm, if_pos (by omega)]
  unfold SendPartialResponse
  simp only [hto, hoff, fileSys, file_writer]
  have hnn : ¬ ((start : Int) < 0) := by omega
  simp only [hnn, if_false, Int.toNat_ofNat, List.take_length]
  obtain ⟨pos2, h2⟩ := partialLoop_file chunk hchunk s fuel start
    (snk ++ partialHeader type length start end_ (end_ - start + 1)) []
    (end_ - start + 1) 1 (by decide) (by omega) (by simp only [SIZE_MOD]; omega) (by omega)
  exact ⟨pos2, h2⟩

/-! ## A response read back as a request -/

theorem SendHtmlResponse_file (chunk : Nat → Nat) (c : List Char) (w : FileWorld) :
    (SendHtmlResponse (fileSys chunk) c w).snk = w.snk ++ htmlResponseText c := by
  simp [SendHtmlResponse, fileSys, file_writer]

theorem htmlResponseText_lines (c : List Char) :
    htmlResponseText c
      = ("HTTP/1.0".toList ++ ' ' :: ("200".toList ++ ' ' :: "OK".toList)) ++ CRLF
        ++ (["Content-Type:text/html".toList, "Content-Length:".toList ++ decimal c.length,
              "Accept-Ranges: bytes".toList].map (fun h => h ++ CRLF)).flatten
        ++ CRLF ++ c := by
  simp [htmlResponseText, CRLF]

/-- The parser on the bytes of `SendHtmlResponse`: the status line is cut like a request line
and the three header lines of the response come back as headers. -/
theorem ParseRequest_htmlResponse (recv : Nat → RecvResult) (c : List Char)
    (hrecv : recv (BUF_SIZE - 1) = .ok (htmlResponseText c))
    (hfit : (htmlResponseText c).length ≤ BUF_SIZE - 1) :
    ParseRequest recv = .request
      { method_ := "HTTP/1.0".toList
        request_uri_ := "200".toList
        http_version_ := "OK".toList
        headers_ := ["Content-Type:text/html".toList,
          "Content-Length:".toList ++ decimal c.length, "Accept-Ranges: bytes".toList]
        content_ := c
        content_length_ := c.length } := by
  rw [htmlResponseText_lines] at hrecv hfit
  have hdig : ∀ x ∈ decimal c.length, x ≠ '\x00' ∧ x ≠ '\r' := by
    intro x hx
    have hd := decimal_isDigit _ x hx
    constructor
    · intro e; rw [e] at hd; exact absurd hd (by decide)
    · intro e; rw [e] at hd; exact absurd hd (by decide)
  have hcl0 : '\x00' ∉ "Content-Length:".toList ++ decimal c.length := by
    intro hm
    rcases List.mem_append.mp hm with m | m
    · exact absurd m (by decide)
    · exact (hdig _ m).1 rfl
  have hclr : '\r' ∉ "Content-Length:".toList ++ decimal c.length := by
    intro hm
    rcases List.mem_append.mp hm with m | m
    · exact absurd m (by decide)
    · exact (hdig _ m).2 rfl
  apply ParseRequest_wellformed recv _ _ _ _ c (by decide) (by decide) (by decide)
    (by decide) _ hrecv hfit
  intro h hh
  simp only [List.mem_cons, List.mem_singleton, List.not_mem_nil, or_false] at hh
  rcases hh with e | e | e
  · rw [e]; exact ⟨by decide, by decide, by decide⟩
  · rw [e]; exact ⟨by simp, hcl0, not_crlf_of_no_cr _ hclr⟩
  · rw [e]; exact ⟨by decide, by decide, by decide⟩

/-! ## What a located boundary tells about the text -/

theorem c_str_no_nul (s : List Char) : '\x00' ∉ c_str s := by
  intro h
  unfold c_str at h
  have := List.mem_takeWhile_imp h
  simp at this

theorem firstOccurrence_some (t : List Char) :
    ∀ k, firstOccurrence CRLF t = some k →
    ∃ L rest, t = L ++ CRLF ++ rest ∧ L.length = k ∧ ¬ CRLF <:+: L := by
  induction t with
  | nil => intro k h; simp [firstOccurrence, CRLF] at h
  | cons c rest ih =>
    intro k h
    unfold firstOccurrence at h
    by_cases hp : CRLF.isPrefixOf (c :: rest) = true
    · rw [if_pos hp] at h
      have hk : k = 0 := by simpa using h.symm
      obtain ⟨tl, htl⟩ := List.isPrefixOf_iff_prefix.mp hp
      exact ⟨[], tl, by simpa using htl.symm, by simp [hk], by simp [CRLF]⟩
    · rw [if_neg hp] at h
      cases hr : firstOccurrence CRLF rest with
      | none => simp [hr] at h
      | some j =>
        simp only [hr, Option.map_some', Option.some.injEq] at h
        obtain ⟨L, tl, hrest, hL, hno⟩ := ih j hr
        refine ⟨c :: L, tl, by rw [hrest]; simp, by simp [hL, h.symm], ?_⟩
        intro hin
        rcases List.infix_cons_iff.mp hin with hpre | hinf
        · apply hp
          apply List.isPrefixOf_iff_prefix.mpr
          rw [hrest]
          exact hpre.trans ⟨CRLF ++ tl, by simp⟩
        · exact hno hinf

theorem firstOccurrence_isSome_of_infix (t : List Char) (h : CRLF <:+: t) :
    ∃ k, firstOccurrence CRLF t = some k := by
  cases hr : firstOccurrence CRLF t with
  | some k => exact ⟨k, rfl⟩
  | none =>
    exfalso
    induction t with
    | nil =>
      obtain ⟨a, b, hab⟩ := h
      have := congrArg List.length hab
      simp [CRLF] at this
    | cons c rest ih =>
      unfold firstOccurrence at hr
      by_cases hp : CRLF.isPrefixOf (c :: rest) = true
      · rw [if_pos hp] at hr; simp at hr
      · rw [if_neg hp] at hr
        rcases List.infix_cons_iff.mp h with hpre | hinf
        · exact hp (List.isPrefixOf_iff_prefix.mpr hpre)
        · cases hr2 : firstOccurrence CRLF rest with
          | none => exact ih hinf hr2
          | some j => simp [hr2] at hr

/-- A boundary found by `strstr` at offset `k`: the `k` bytes before it hold no NUL and no
CR LF, and CR LF follows them. -/
theorem strstr_some (s : List Char) (k : Nat) (h : strstr s CRLF = some k) :
    ∃ L rest, s = L ++ CRLF ++ rest ∧ L.length = k ∧ '\x00' ∉ L ∧ ¬ CRLF <:+: L := by
  unfold strstr at h
  obtain ⟨L, tl, ht, hL, hno⟩ := firstOccurrence_some _ k h
  obtain ⟨s2, hs2⟩ := c_str_prefix_self s
  refine ⟨L, tl ++ s2, ?_, hL, ?_, hno⟩
  · rw [← hs2, ht]; simp [List.append_assoc]
  · intro hm
    apply c_str_no_nul s
    rw [ht]
    simp [hm]

/-! ## The end-of-header branch, read backwards -/

theorem findFrom_range (c : Char) (s : List Char) :
    ∀ i, findFrom c i s = npos ∨ (i ≤ findFrom c i s ∧ findFrom c i s < i + s.length) := by
  induction s with
  | nil => intro i; left; rfl
  | cons x xs ih =>
    intro i
    unfold findFrom
    by_cases hx : x = c
    · rw [if_pos hx]; right; simp
    · rw [if_neg hx]
      rcases ih (i + 1) with h | h
      · left; exact h
      · right
        simp only [List.length_cons]
        omega

theorem find_first_of_range (s : List Char) (c : Char) (pos : Nat) (hpos : pos ≤ s.length) :
    find_first_of s c pos = npos
      ∨ (pos ≤ find_first_of s c pos ∧ find_first_of s c pos < s.length) := by
  unfold find_first_of
  rcases findFrom_range c (s.drop pos) pos with h | h
  · left; exact h
  · right
    rw [List.length_drop] at h
    omega

/-- The fields of a request the end-of-header branch returns, as the code computes them. -/
theorem endOfHeader_request_fields (buffer : List Char) (len content : Nat) (h0 : List Char)
    (others : List (List Char)) (r : HttpRequest)
    (h : endOfHeader buffer len content (h0 :: others) = .request r) :
    r.method_ = h0.take (find_first_of h0 ' ' 0)
    ∧ r.request_uri_ = (h0.drop ((find_first_of h0 ' ' 0 + 1) % SIZE_MOD)).take
        ((find_first_of h0 ' ' ((find_first_of h0 ' ' 0 + 1) % SIZE_MOD) + SIZE_MOD
          - (find_first_of h0 ' ' 0 + 1) % SIZE_MOD) % SIZE_MOD)
    ∧ r.http_version_ = (h0.drop
        ((find_first_of h0 ' ' ((find_first_of h0 ' ' 0 + 1) % SIZE_MOD) + 1) % SIZE_MOD)).take
        npos
    ∧ r.headers_ = others
    ∧ r.content_length_ = (((len : Int) - (content : Int)) % (SIZE_MOD : Int)).toNat
    ∧ r.content_ = (buffer.drop content).take
        (((len : Int) - (content : Int)) % (SIZE_MOD : Int)).toNat := by
  unfold endOfHeader at h
  simp only [substr] at h
  split at h
  · simp at h
  · rename_i m hm
    split at h
    · simp at h
    · rename_i u hu
      split at h
      · simp at h
      · rename_i v hv
        have hr : r = _ := (ParseOutcome.request.inj h).symm
        subst hr
        simp only
        split at hm
        · simp at hm
        · split at hu
          · simp at hu
          · split at hv
            · simp at hv
            · simp only [Option.some.injEq, List.drop_zero] at hm hu hv
              exact ⟨hm.symm, hu.symm, hv.symm, trivial, trivial, trivial⟩

/-- With a first line shorter than `npos` no string constructor throws: the end-of-header
branch returns a request. -/
theorem endOfHeader_cons_isRequest (buffer : List Char) (len content : Nat) (h0 : List Char)
    (others : List (List Char)) (hsize : h0.length < npos) :
    ∃ r, endOfHeader buffer len content (h0 :: others) = .request r := by
  have hnpos : npos + 1 = SIZE_MOD := by decide
  have h1 := find_first_of_range h0 ' ' 0 (Nat.zero_le _)
  have hp1 : (find_first_of h0 ' ' 0 + 1) % SIZE_MOD ≤ h0.length := by
    rcases h1 with e | ⟨_, e⟩
    · rw [e, hnpos, Nat.mod_self]; omega
    · rw [Nat.mod_eq_of_lt (by omega)]; omega
  have h2 := find_first_of_range h0 ' ' ((find_first_of h0 ' ' 0 + 1) % SIZE_MOD) hp1
  have hp2 : (find_first_of h0 ' ' ((find_first_of h0 ' ' 0 + 1) % SIZE_MOD) + 1) % SIZE_MOD
      ≤ h0.length := by
    rcases h2 with e | ⟨_, e⟩
    · rw [e, hnpos, Nat.mod_self]; omega
    · rw [Nat.mod_eq_of_lt (by omega)]; omega
  unfold endOfHeader
  simp only [substr]
  rw [if_neg (by omega), if_neg (by omega), if_neg (by omega)]
  exact ⟨_, rfl⟩

/-! ## A successful parse, read backwards -/

/-- A request returned by the loop: from `curr` on the buffer holds lines `Hs`, each non-empty,
free of NUL and of CR LF and closed by CR LF, then a blank line; the request comes from the
end-of-header branch run on the collected lines with `content` right behind the blank line. -/
theorem parseLoop_request_inv (r : HttpRequest) :
    ∀ (fuel : Nat) (buffer : List Char) (curr : Nat) (acc : List (List Char)),
    curr ≤ buffer.length →
    parseLoop fuel buffer buffer.length curr acc = .request r →
    ∃ Hs body, buffer.drop curr = (Hs.map (fun h => h ++ CRLF)).flatten ++ CRLF ++ body
      ∧ (∀ h ∈ Hs, h ≠ [] ∧ '\x00' ∉ h ∧ ¬ CRLF <:+: h)
      ∧ endOfHeader buffer buffer.length
          (curr + ((Hs.map (fun h => h ++ CRLF)).flatten).length + 2) (acc ++ Hs)
        = .request r := by
  intro fuel
  induction fuel with
  | zero => intro buffer curr acc _ h; simp [parseLoop] at h
  | succ f ih =>
    intro buffer curr acc hcurr h
    unfold parseLoop at h
    cases hs : strstr (buffer.drop curr) CRLF with
    | none => simp [hs] at h
    | some k =>
      obtain ⟨L, rest, hdrop, hLk, hnul, hcr⟩ := strstr_some _ k hs
      have hlen : buffer.length - curr = k + 2 + rest.length := by
        have := congrArg List.length hdrop
        simp only [List.length_drop, List.length_append, CRLF, List.length_cons,
          List.length_nil] at this
        omega
      simp only [hs] at h
      split at h
      · simp at h
      · split at h
        · rename_i hk0
          have hk : k = 0 := by omega
          have hLnil : L = [] := List.length_eq_zero.mp (by omega)
          subst hLnil
          refine ⟨[], rest, by simpa using hdrop, by simp, ?_⟩
          simpa [hk] using h
        · rename_i hk0
          have hk : 0 < k := by omega
          have htake : (buffer.drop curr).take (curr + k - curr) = L := by
            rw [hdrop, List.append_assoc, Nat.add_sub_cancel_left, ← hLk]
            exact List.take_left _ _
          rw [htake] at h
          obtain ⟨Hs, body, hd2, hall, he⟩ := ih buffer (curr + k + 2) (acc ++ [L]) (by omega) h
          have hrest : buffer.drop (curr + k + 2) = rest := by
            have e : buffer.drop (curr + k + 2) = (buffer.drop curr).drop (k + 2) := by
              rw [List.drop_drop, Nat.add_assoc]
            rw [e, hdrop]
            have l : k + 2 = (L ++ CRLF).length := by simp [CRLF, hLk]
            rw [l]
            exact List.drop_left _ _
          refine ⟨L :: Hs, body, ?_, ?_, ?_⟩
          · rw [hdrop, ← hrest, hd2]
            simp [List.append_assoc]
          · intro x hx
            rcases List.mem_cons.mp hx with e | m
            · subst e
              exact ⟨fun e => by simp [e] at hLk; omega, hnul, hcr⟩
            · exact hall x m
          · have e1 : curr + ((List.map (fun h => h ++ CRLF) (L :: Hs)).flatten).length + 2
                = curr + k + 2 + ((List.map (fun h => h ++ CRLF) Hs).flatten).length + 2 := by
              simp [CRLF, hLk]; omega
            have e2 : acc ++ L :: Hs = acc ++ [L] ++ Hs := by simp
            rw [e1, e2]
            exact he

/-- A request returned by `ParseRequest` on the input `d`: `d` is a first line `L` and lines
`Hs`, all non-empty, free of NUL and of CR LF and closed by CR LF, a blank line and a body; the
request comes from the end-of-header branch run on `L :: Hs` with `content` at the body. -/
theorem ParseRequest_request_inv (recv : Nat → RecvResult) (d : List Char) (r : HttpRequest)
    (hrecv : recv (BUF_SIZE - 1) = .ok d) (hok : ParseRequest recv = .request r) :
    ∃ L Hs body, d = L ++ CRLF ++ (Hs.map (fun h => h ++ CRLF)).flatten ++ CRLF ++ body
      ∧ (∀ h ∈ L :: Hs, h ≠ [] ∧ '\x00' ∉ h ∧ ¬ CRLF <:+: h)
      ∧ endOfHeader d d.length
          (L.length + 2 + ((Hs.map (fun h => h ++ CRLF)).flatten).length + 2) (L :: Hs)
        = .request r := by
  unfold ParseRequest at hok
  rw [hrecv] at hok
  simp only at hok
  obtain ⟨Hs, body, hd, hall, he⟩ := parseLoop_request_inv r _ d 0 [] (Nat.zero_le _) hok
  cases Hs with
  | nil => simp [endOfHeader] at he
  | cons L Hs =>
    refine ⟨L, Hs, body, ?_, hall, ?_⟩
    · rw [List.drop_zero] at hd
      rw [hd]; simp [List.append_assoc]
    · have e : 0 + ((List.map (fun h => h ++ CRLF) (L :: Hs)).flatten).length + 2
          = L.length + 2 + ((List.map (fun h => h ++ CRLF) Hs).flatten).length + 2 := by
        simp [CRLF]; omega
      rw [e] at he
      simpa using he

/-- With a buffer shorter than `npos` the loop never ends in an exception. -/
theorem parseLoop_ne_threw :
    ∀ (fuel : Nat) (buffer : List Char) (len curr : Nat) (acc : List (List Char)),
    buffer.length < npos → (∀ h ∈ acc, h.length < npos) →
    parseLoop fuel buffer len curr acc ≠ .threw := by
  intro fuel
  induction fuel with
  | zero => intro buffer len curr acc _ _; simp [parseLoop]
  | succ f ih =>
    intro buffer len curr acc hb hacc
    unfold parseLoop
    cases hs : strstr (buffer.drop curr) CRLF with
    | none => simp
    | some k =>
      simp only
      split
      · simp
      · split
        · cases acc with
          | nil => simp [endOfHeader]
          | cons h0 others =>
            obtain ⟨r, hr⟩ := endOfHeader_cons_isRequest buffer len (curr + k + 2) h0 others
              (hacc h0 (List.mem_cons_self _ _))
            rw [hr]; simp
        · apply ih _ _ _ _ hb
          intro h hh
          rcases List.mem_append.mp hh with m | m
          · exact hacc h m
          · simp only [List.mem_singleton] at m
            rw [m, List.length_take, List.length_drop]
            omega

/-- On an input of at most 131071 bytes `ParseRequest` never ends in an exception. -/
theorem ParseRequest_ne_threw (recv : Nat → RecvResult)
    (hlen : ∀ d, recv (BUF_SIZE - 1) = .ok d → d.length ≤ BUF_SIZE - 1) :
    ParseRequest recv ≠ .threw := by
  unfold ParseRequest
  cases hr : recv (BUF_SIZE - 1) with
  | error => simp
  | ok bytes =>
    simp only
    have := hlen bytes hr
    apply parseLoop_ne_threw
    · simp only [BUF_SIZE] at this
      simp only [npos]
      omega
    · simp

/-! ## The lines of an input -/

/-- An input has one reading only as lines closed by CR LF, a blank line and a body, when the
lines are non-empty and hold no CR LF. -/
theorem lines_unique (Hs : List (List Char)) :
    ∀ (Hs2 : List (List Char)) (body body2 : List Char),
    (∀ h ∈ Hs, h ≠ [] ∧ ¬ CRLF <:+: h) → (∀ h ∈ Hs2, h ≠ [] ∧ ¬ CRLF <:+: h) →
    (Hs.map (fun h => h ++ CRLF)).flatten ++ CRLF ++ body
      = (Hs2.map (fun h => h ++ CRLF)).flatten ++ CRLF ++ body2 →
    Hs = Hs2 ∧ body = body2 := by
  induction Hs with
  | nil =>
    intro Hs2 body body2 _ h2 he
    cases Hs2 with
    | nil => simpa using he
    | cons h t =>
      exfalso
      have f1 := firstOccurrence_line [] body (by simp [CRLF])
      have f2 := firstOccurrence_line h
        ((t.map (fun h => h ++ CRLF)).flatten ++ CRLF ++ body2) (h2 h (List.mem_cons_self _ _)).2
      have e : [] ++ '\r' :: '\n' :: body
          = h ++ '\r' :: '\n' :: ((t.map (fun h => h ++ CRLF)).flatten ++ CRLF ++ body2) := by
        simpa [CRLF, List.append_assoc] using he
      rw [e, f2] at f1
      have : h.length = 0 := by simpa using f1
      exact (h2 h (List.mem_cons_self _ _)).1 (List.length_eq_zero.mp this)
  | cons h t ih =>
    intro Hs2 body body2 h1 h2 he
    cases Hs2 with
    | nil =>
      exfalso
      have f1 := firstOccurrence_line [] body2 (by simp [CRLF])
      have f2 := firstOccurrence_line h
        ((t.map (fun h => h ++ CRLF)).flatten ++ CRLF ++ body) (h1 h (List.mem_cons_self _ _)).2
      have e : [] ++ '\r' :: '\n' :: body2
          = h ++ '\r' :: '\n' :: ((t.map (fun h => h ++ CRLF)).flatten ++ CRLF ++ body) := by
        simpa [CRLF, List.append_assoc] using he.symm
      rw [e, f2] at f1
      have : h.length = 0 := by simpa using f1
      exact (h1 h (List.mem_cons_self _ _)).1 (List.length_eq_zero.mp this)
    | cons g u =>
      have f1 := firstOccurrence_line h
        ((t.map (fun h => h ++ CRLF)).flatten ++ CRLF ++ body) (h1 h (List.mem_cons_self _ _)).2
      have f2 := firstOccurrence_line g
        ((u.map (fun h => h ++ CRLF)).flatten ++ CRLF ++ body2) (h2 g (List.mem_cons_self _ _)).2
      have e : h ++ '\r' :: '\n' :: ((t.map (fun h => h ++ CRLF)).flatten ++ CRLF ++ body)
          = g ++ '\r' :: '\n' :: ((u.map (fun h => h ++ CRLF)).flatten ++ CRLF ++ body2) := by
        simpa [CRLF, List.append_assoc] using he
      rw [e, f2] at f1
      have hl : g.length = h.length := by simpa using f1
      obtain ⟨e1, e2⟩ := List.append_inj e hl.symm
      have e3 : (t.map (fun h => h ++ CRLF)).flatten ++ CRLF ++ body
          = (u.map (fun h => h ++ CRLF)).flatten ++ CRLF ++ body2 := by
        simpa using e2
      obtain ⟨i1, i2⟩ := ih u body body2 (fun x hx => h1 x (List.mem_cons_of_mem _ hx))
        (fun x hx => h2 x (List.mem_cons_of_mem _ hx)) e3
      exact ⟨by rw [e1, i1], i2⟩

theorem length_flatten_lines (Hs : List (List Char)) :
    ((Hs.map (fun h => h ++ CRLF)).flatten).length = (Hs.map (fun h => h.length + 2)).sum := by
  induction Hs with
  | nil => rfl
  | cons h t ih => simp [CRLF] at ih ⊢; omega

/-- The loop never takes the branch of lines 47-50. -/
theorem parseLoop_eq_noOverflowCheck :
    ∀ (fuel : Nat) (buffer : List Char) (curr : Nat) (acc : List (List Char)),
    parseLoop fuel buffer buffer.length curr acc
      = parseLoopNoOverflowCheck fuel buffer buffer.length curr acc := by
  intro fuel
  induction fuel with
  | zero => intro buffer curr acc; rfl
  | succ f ih =>
    intro buffer curr acc
    unfold parseLoop parseLoopNoOverflowCheck
    cases hs : strstr (buffer.drop curr) CRLF with
    | none => rfl
    | some k =>
      have hb := strstr_bound _ k hs
      rw [List.length_drop] at hb
      simp only
      rw [if_neg (by omega), ih]

/-! ## When the parser succeeds -/

theorem firstOccurrence_of_prefix (t : List Char) (h : CRLF <+: t) :
    firstOccurrence CRLF t = some 0 := by
  cases t with
  | nil =>
    have := h.length_le
    simp [CRLF] at this
  | cons c rest =>
    unfold firstOccurrence
    rw [if_pos (List.isPrefixOf_iff_prefix.mpr h)]

/-- A line that holds no CR LF, followed by CR LF: the text has a blank line only where what
follows has one, at its start or further on. -/
theorem blank_line_after (L rest : List Char) (hL : ¬ CRLF <:+: L)
    (h : CRLF ++ CRLF <:+: L ++ CRLF ++ rest) :
    CRLF <+: rest ∨ CRLF ++ CRLF <:+: rest := by
  induction L with
  | nil =>
    simp only [CRLF, List.nil_append, List.cons_append] at h ⊢
    rcases List.infix_cons_iff.mp h with hp | hi
    · left
      simpa using hp
    · rcases List.infix_cons_iff.mp hi with hp2 | hi2
      · simp at hp2
      · right; exact hi2
  | cons c L ih =>
    have hL2 : ¬ CRLF <:+: L := fun hi => hL (hi.trans (List.suffix_cons c L).isInfix)
    rw [List.cons_append, List.cons_append] at h
    rcases List.infix_cons_iff.mp h with hp | hi
    · exfalso
      cases L with
      | nil => simp [CRLF] at hp
      | cons d L =>
        simp only [CRLF, List.cons_append, List.nil_append, List.cons_prefix_cons] at hp
        apply hL
        rw [← hp.1, ← hp.2.1]
        exact (List.prefix_append ['\r', '\n'] L).isInfix
    · exact ih hL2 hi

theorem flatten_lines_ends (Hs : List (List Char)) (h : Hs ≠ []) :
    ∃ X, (Hs.map (fun h => h ++ CRLF)).flatten = X ++ CRLF := by
  induction Hs with
  | nil => exact absurd rfl h
  | cons a t ih =>
    cases t with
    | nil => exact ⟨a, by simp⟩
    | cons b u =>
      obtain ⟨X, hX⟩ := ih (by simp)
      exact ⟨a ++ CRLF ++ X, by
        rw [List.map_cons, List.flatten_cons, hX]; simp [List.append_assoc]⟩

theorem no_nul_flatten_lines (Hs : List (List Char)) (h : ∀ l ∈ Hs, '\x00' ∉ l) :
    '\x00' ∉ (Hs.map (fun h => h ++ CRLF)).flatten := by
  induction Hs with
  | nil => simp
  | cons a t ih =>
    intro hm
    rw [List.map_cons, List.flatten_cons] at hm
    rcases List.mem_append.mp hm with m | m
    · rcases List.mem_append.mp m with m2 | m2
      · exact h a (List.mem_cons_self _ _) m2
      · simp [CRLF] at m2
    · exact ih (fun l hl => h l (List.mem_cons_of_mem _ hl)) m

/-- With a line already collected, the loop returns a request as soon as the text from `curr`
on starts with CR LF or holds a blank line. -/
theorem parseLoop_progress :
    ∀ (fuel : Nat) (buffer : List Char) (curr : Nat) (acc : List (List Char)),
    acc ≠ [] → (∀ h ∈ acc, h.length < npos) → buffer.length < npos →
    buffer.length - curr < fuel →
    (CRLF <+: c_str (buffer.drop curr) ∨ CRLF ++ CRLF <:+: c_str (buffer.drop curr)) →
    ∃ r, parseLoop fuel buffer buffer.length curr acc = .request r := by
  intro fuel
  induction fuel with
  | zero => intro buffer curr acc _ _ _ h _; omega
  | succ f ih =>
    intro buffer curr acc hne hacc hb hfuel hblank
    have hinf : CRLF <:+: c_str (buffer.drop curr) := by
      rcases hblank with h | h
      · exact h.isInfix
      · exact (List.prefix_append CRLF CRLF).isInfix.trans h
    obtain ⟨k, hk⟩ := firstOccurrence_isSome_of_infix _ hinf
    have hs : strstr (buffer.drop curr) CRLF = some k := hk
    obtain ⟨L, rest, hdrop, hLk, hnul, hcr⟩ := strstr_some _ k hs
    have hlen : buffer.length - curr = k + 2 + rest.length := by
      have := congrArg List.length hdrop
      simp only [List.length_drop, List.length_append, CRLF, List.length_cons,
        List.length_nil] at this
      omega
    have hcs : c_str (buffer.drop curr) = L ++ CRLF ++ c_str rest := by
      rw [hdrop, List.append_assoc, c_str_append_of_no_nul L _ hnul]
      have : c_str (CRLF ++ rest) = CRLF ++ c_str rest := by
        simp [c_str, CRLF, List.takeWhile_cons]
      rw [this, List.append_assoc]
    unfold parseLoop
    simp only [hs]
    rw [if_neg (by omega)]
    by_cases hk0 : curr + k - curr = 0
    · rw [if_pos hk0]
      cases acc with
      | nil => exact absurd rfl hne
      | cons h0 others =>
        exact endOfHeader_cons_isRequest _ _ _ h0 others (hacc h0 (List.mem_cons_self _ _))
    · rw [if_neg hk0]
      have hrest : buffer.drop (curr + k + 2) = rest := by
        have e : buffer.drop (curr + k + 2) = (buffer.drop curr).drop (k + 2) := by
          rw [List.drop_drop, Nat.add_assoc]
        rw [e, hdrop]
        have l : k + 2 = (L ++ CRLF).length := by simp [CRLF, hLk]
        rw [l]
        exact List.drop_left _ _
      have hnext : CRLF <+: c_str rest ∨ CRLF ++ CRLF <:+: c_str rest := by
        rw [hcs] at hblank
        rcases hblank with h | h
        · exfalso
          have f0 := firstOccurrence_of_prefix _ h
          have e : L ++ CRLF ++ c_str rest = L ++ '\r' :: '\n' :: c_str rest := by
            simp [CRLF]
          rw [e, firstOccurrence_line L _ hcr] at f0
          have : L.length = 0 := by simpa using f0
          omega
        · exact blank_line_after L _ hcr h
      apply ih buffer (curr + k + 2) _ (by simp) _ hb (by omega) (by rw [hrest]; exact hnext)
      intro h hh
      rcases List.mem_append.mp hh with m | m
      · exact hacc h m
      · simp only [List.mem_singleton] at m
        rw [m, List.length_take, List.length_drop]
        omega

/-- The inputs on which `ParseRequest` returns a request: those whose text before the first
NUL does not start with CR LF and holds a blank line. -/
theorem ParseRequest_request_iff (recv : Nat → RecvResult)
    (hlen : ∀ d, recv (BUF_SIZE - 1) = .ok d → d.length ≤ BUF_SIZE - 1) :
    (∃ r, ParseRequest recv = .request r)
      ↔ ∃ d, recv (BUF_SIZE - 1) = .ok d ∧ ¬ CRLF <+: c_str d
          ∧ CRLF ++ CRLF <:+: c_str d := by
  constructor
  · rintro ⟨r, hok⟩
    cases hr : recv (BUF_SIZE - 1) with
    | error => simp [ParseRequest, hr] at hok
    | ok d =>
      obtain ⟨L, Hs, body, hd, hall, _⟩ := ParseRequest_request_inv recv d r hr hok
      refine ⟨d, rfl, ?_, ?_⟩
      · intro hp
        obtain ⟨hLne, hLnul, hLcr⟩ := hall L (List.mem_cons_self _ _)
        have hcs : c_str d = L ++ '\r' :: '\n' ::
            c_str ((Hs.map (fun h => h ++ CRLF)).flatten ++ CRLF ++ body) := by
          rw [hd, List.append_assoc, List.append_assoc, List.append_assoc,
            c_str_append_of_no_nul L _ hLnul]
          simp [c_str, CRLF, List.takeWhile_cons]
        rw [hcs] at hp
        have f0 := firstOccurrence_of_prefix _ hp
        rw [firstOccurrence_line L _ hLcr] at f0
        have : L.length = 0 := by simpa using f0
        exact hLne (List.length_eq_zero.mp this)
      · obtain ⟨X, hX⟩ := flatten_lines_ends (L :: Hs) (by simp)
        have hXnul : '\x00' ∉ X ++ CRLF := by
          rw [← hX]
          exact no_nul_flatten_lines _ (fun l hl => (hall l hl).2.1)
        have e : d = (X ++ CRLF) ++ (CRLF ++ body) := by
          rw [← hX, hd]; simp [List.append_assoc]
        have hcs : c_str d = X ++ (CRLF ++ CRLF) ++ c_str body := by
          rw [e, c_str_append_of_no_nul _ _ hXnul]
          have : c_str (CRLF ++ body) = CRLF ++ c_str body := by
            simp [c_str, CRLF, List.takeWhile_cons]
          rw [this]; simp [List.append_assoc]
        rw [hcs]
        exact List.infix_append _ _ _
  · rintro ⟨d, hr, hnp, hbl⟩
    have hdl := hlen d hr
    have hb : d.length < npos := by
      simp only [BUF_SIZE] at hdl
      simp only [npos]
      omega
    have hinf : CRLF <:+: c_str d := (List.prefix_append CRLF CRLF).isInfix.trans hbl
    obtain ⟨k, hk⟩ := firstOccurrence_isSome_of_infix _ hinf
    have hs : strstr d CRLF = some k := hk
    obtain ⟨L, rest, hdrop, hLk, hnul, hcr⟩ := strstr_some _ k hs
    have hcs : c_str d = L ++ CRLF ++ c_str rest := by
      rw [hdrop, List.append_assoc, c_str_append_of_no_nul L _ hnul]
      have : c_str (CRLF ++ rest) = CRLF ++ c_str rest := by
        simp [c_str, CRLF, List.takeWhile_cons]
      rw [this, List.append_assoc]
    have hdl2 : d.length = k + 2 + rest.length := by
      have := congrArg List.length hdrop
      simp only [List.length_append, CRLF, List.length_cons, List.length_nil] at this
      omega
    have hkpos : 0 < k := by
      rcases Nat.eq_zero_or_pos k with h0 | h0
      · exfalso
        have hLnil : L = [] := List.length_eq_zero.mp (by omega)
        apply hnp
        rw [hcs, hLnil]
        exact ⟨c_str rest, by simp⟩
      · exact h0
    have hnext : CRLF <+: c_str rest ∨ CRLF ++ CRLF <:+: c_str rest := by
      rw [hcs] at hbl
      exact blank_line_after L _ hcr hbl
    have hrest : d.drop (0 + k + 2) = rest := by
      have l : 0 + k + 2 = (L ++ CRLF).length := by simp [CRLF, hLk]
      rw [l]
      conv_lhs => rw [hdrop]
      exact List.drop_left _ _
    unfold ParseRequest
    rw [hr]
    simp only
    unfold parseLoop
    rw [List.drop_zero]
    simp only [hs]
    rw [if_neg (by omega), if_neg (by omega)]
    apply parseLoop_progress _ d (0 + k + 2) _ (by simp) _ hb (by omega)
      (by rw [hrest]; exact hnext)
    intro h hh
    have hh2 : h = d.take (0 + k - 0) := by simpa using hh
    rw [hh2, List.length_take]
    omega

theorem file_reader_length (file d : List Char) (n : Nat) (h : file_reader file n = .ok d) :
    d.length ≤ n := by
  unfold file_reader at h
  have e : file.take n = d := RecvResult.ok.inj h
  rw [← e, List.length_take]
  omega

/-! ## The loop of `SendPartialResponse` under any I/O -/

/-- Under any behaviour of the source and of the send function the loop of
`SendPartialResponse` ends within `to_send + 2` tests of its condition, and the sizes of its
send calls add up to at most `to_send`. -/
theorem partialLoop_traced_bound {σ : Type} (sys : Sys σ) :
    ∀ (fuel : Nat) (w : σ) (log : List Event) (buffer : List Char) (to_send available : Nat),
    to_send < SIZE_MOD → (to_send + 2 ≤ fuel ∨ (available = 0 ∧ 1 ≤ fuel)) →
    ∃ w2 ext ts2, partialLoop (traced sys) fuel (w, log) buffer to_send available
        = some ((w2, log ++ ext), ts2)
      ∧ handed ext ≤ to_send ∧ ts2 ≤ to_send := by
  intro fuel
  induction fuel with
  | zero => intro w log buffer to_send available _ h; omega
  | succ f ih =>
    intro w log buffer to_send available hlt hfuel
    rw [partialLoop]
    by_cases hc : available > 0 ∧ to_send > 0
    · rw [if_pos hc]
      simp only [traced]
      generalize sys.read w BUF_SIZE = rd
      generalize hsd : sys.send rd.2 (store rd.1.2 buffer)
        (if toSizeT rd.1.1 > to_send then to_send else toSizeT rd.1.1) = sd
      have hle : (if toSizeT rd.1.1 > to_send then to_send else toSizeT rd.1.1) ≤ to_send := by
        split <;> omega
      by_cases hb : toSizeT sd.1 ≠ (if toSizeT rd.1.1 > to_send then to_send else toSizeT rd.1.1)
      · rw [if_pos hb]
        refine ⟨sd.2, [Event.read BUF_SIZE rd.1.1 rd.1.2,
          Event.send ((store rd.1.2 buffer).take
            (if toSizeT rd.1.1 > to_send then to_send else toSizeT rd.1.1))
            (if toSizeT rd.1.1 > to_send then to_send else toSizeT rd.1.1) sd.1], to_send,
          by simp, ?_, Nat.le_refl _⟩
        simp only [handed]
        omega
      · rw [if_neg hb]
        have hb2 : toSizeT sd.1
            = (if toSizeT rd.1.1 > to_send then to_send else toSizeT rd.1.1) := by
          by_contra h; exact hb h
        have hsub : subSizeT to_send (toSizeT sd.1) = to_send - toSizeT sd.1 :=
          subSizeT_of_le _ _ (by omega) hlt
        rw [hsub]
        obtain ⟨w2, ext, ts2, hrun, hh, hts⟩ := ih sd.2
          (log ++ [Event.read BUF_SIZE rd.1.1 rd.1.2] ++ [Event.send ((store rd.1.2 buffer).take
            (if toSizeT rd.1.1 > to_send then to_send else toSizeT rd.1.1))
            (if toSizeT rd.1.1 > to_send then to_send else toSizeT rd.1.1) sd.1])
          (store rd.1.2 buffer) (to_send - toSizeT sd.1) (toSizeT rd.1.1) (by omega)
          (by
            rcases Nat.eq_zero_or_pos (toSizeT rd.1.1) with h0 | h0
            · right; exact ⟨h0, by omega⟩
            · left
              have : 0 < toSizeT sd.1 := by
                rw [hb2]; split <;> omega
              omega)
        simp only [traced] at hrun
        rw [hrun]
        refine ⟨w2, Event.read BUF_SIZE rd.1.1 rd.1.2 :: Event.send
            ((store rd.1.2 buffer).take
              (if toSizeT rd.1.1 > to_send then to_send else toSizeT rd.1.1))
            (if toSizeT rd.1.1 > to_send then to_send else toSizeT rd.1.1) sd.1 :: ext, ts2,
          by simp, ?_, by omega⟩
        simp only [handed]
        omega
    · rw [if_neg hc]
      exact ⟨w, [], to_send, by simp, by simp [handed], Nat.le_refl _⟩

/-! ## The senders on a file source with any answers of the send function -/

/-- One pass of the loop of `SendResponse`: the read delivers `data`, the send function is
asked to send it and answers; the loop goes on when the answer is the length of `data`. -/
theorem sendLoop_answer_step (chunk : Nat → Nat) (answer : Nat → List Char → Nat → Int)
    (s : List Char) (f pos : Nat) (snk : List Char) (calls : Nat) (log : List Event)
    (buffer : List Char) (to_send : Nat) (available : Int) (h : 0 < available)
    (data : List Char) (hdata : data = (s.drop pos).take (min BUF_SIZE (chunk pos))) :
    sendLoop (traced (answerSys chunk answer)) (f + 1) ((⟨s, pos, snk⟩, calls), log) buffer
        to_send available
      = if answer calls data data.length ≠ (data.length : Int) then
          some (((⟨s, pos + data.length, snk⟩, calls + 1),
            log ++ [Event.read BUF_SIZE (data.length : Int) data]
              ++ [Event.send data data.length (answer calls data data.length)]), to_send)
        else
          sendLoop (traced (answerSys chunk answer)) f
            ((⟨s, pos + data.length, snk⟩, calls + 1),
              log ++ [Event.read BUF_SIZE (data.length : Int) data]
                ++ [Event.send data data.length (answer calls data data.length)])
            (store data buffer)
            (subSizeT to_send (toSizeT (answer calls data data.length)))
            (data.length : Int) := by
  have hn : data.length < SIZE_MOD := by
    have : data.length ≤ BUF_SIZE := by
      rw [hdata, List.length_take]; omega
    simp only [BUF_SIZE] at this
    simp only [SIZE_MOD]
    omega
  have h1 : toSizeT (data.length : Int) = data.length := toSizeT_natCast _ hn
  have h2 : (store data buffer).take data.length = data := by
    rw [store_take _ _ _ (Nat.le_refl _), List.take_length]
  rw [sendLoop]
  simp only [traced, answerSys, fileSys, if_pos h, ← hdata, h1, h2]

/-- The loop of `SendResponse` on a file source, whatever the send function answers: it ends,
a send call answered with another count than its size is its last call, the bytes of the
calls answered in full are a prefix of what is left of the source, and when `to_send` covers
what is left of the source it goes down by the number of these bytes. -/
theorem sendLoop_answer (chunk : Nat → Nat) (hchunk : ∀ p, 0 < chunk p)
    (answer : Nat → List Char → Nat → Int) (s : List Char) :
    ∀ (fuel pos : Nat) (snk : List Char) (calls : Nat) (log : List Event)
      (buffer : List Char) (to_send : Nat) (available : Int),
    0 < available → pos ≤ s.length → s.length - pos + 2 ≤ fuel →
    ∃ w2 ext ts2, sendLoop (traced (answerSys chunk answer)) fuel
          ((⟨s, pos, snk⟩, calls), log) buffer to_send available
        = some ((w2, log ++ ext), ts2)
      ∧ stopsAtShortSend ext = true
      ∧ accepted ext <+: s.drop pos
      ∧ (s.length - pos ≤ to_send → to_send < SIZE_MOD →
          ts2 + (accepted ext).length = to_send) := by
  intro fuel
  induction fuel with
  | zero => intro pos snk calls log buffer to_send available _ _ h; omega
  | succ f ih =>
    intro pos snk calls log buffer to_send available hav hpos hfuel
    obtain ⟨data, hdata⟩ : ∃ data, data = (s.drop pos).take (min BUF_SIZE (chunk pos)) :=
      ⟨_, rfl⟩
    rw [sendLoop_answer_step chunk answer s f pos snk calls log buffer to_send available hav
      data hdata]
    have hlen : data.length = min (min BUF_SIZE (chunk pos)) (s.length - pos) := by
      rw [hdata, List.length_take, List.length_drop]
    have hc := hchunk pos
    have hB : 0 < BUF_SIZE := by decide
    have hpre : data <+: s.drop pos := by rw [hdata]; exact List.take_prefix _ _
    by_cases hr : answer calls data data.length ≠ (data.length : Int)
    · rw [if_pos hr]
      refine ⟨(⟨s, pos + data.length, snk⟩, calls + 1),
        [Event.read BUF_SIZE (data.length : Int) data,
          Event.send data data.length (answer calls data data.length)], to_send, by simp,
        ?_, ?_, ?_⟩
      · simp [stopsAtShortSend]
      · simp only [accepted, if_neg hr, List.append_nil]
        exact List.nil_prefix
      · intro _ _
        simp [accepted, if_neg hr]
    · rw [if_neg hr]
      have hr2 : answer calls data data.length = (data.length : Int) := by
        by_contra h; exact hr h
      have hn : data.length < SIZE_MOD := by
        have : data.length ≤ BUF_SIZE := by omega
        simp only [BUF_SIZE] at this
        simp only [SIZE_MOD]
        omega
      rw [hr2, toSizeT_natCast _ hn]
      by_cases h0 : data.length = 0
      · have hnil : data = [] := List.length_eq_zero.mp h0
        obtain ⟨g, rfl⟩ : ∃ g, f = g + 1 := ⟨f - 1, by omega⟩
        rw [sendLoop, h0]
        simp only [Nat.cast_zero, lt_self_iff_false, gt_iff_lt, if_false]
        refine ⟨(⟨s, pos + 0, snk⟩, calls + 1),
          [Event.read BUF_SIZE 0 data, Event.send data 0 0],
          subSizeT to_send 0, by simp, ?_, ?_, ?_⟩
        · simp [stopsAtShortSend]
        · simp [accepted, hnil]
        · intro _ hlt
          rw [subSizeT_of_le _ _ (Nat.zero_le _) hlt]
          simp [accepted, hnil]
      · obtain ⟨w2, ext, ts2, hrun, hstop, hacc, hts⟩ := ih (pos + data.length) snk (calls + 1)
          (log ++ [Event.read BUF_SIZE (data.length : Int) data]
            ++ [Event.send data data.length (data.length : Int)])
          (store data buffer) (subSizeT to_send data.length) (data.length : Int)
          (by exact_mod_cast Nat.pos_of_ne_zero h0) (by omega) (by omega)
        rw [hrun]
        have hsplit : data ++ s.drop (pos + data.length) = s.drop pos := by
          rw [← List.drop_drop, hdata]
          exact take_append_drop_length _ _
        refine ⟨w2, Event.read BUF_SIZE (data.length : Int) data
          :: Event.send data data.length (data.length : Int) :: ext, ts2, by simp, ?_, ?_, ?_⟩
        · simp [stopsAtShortSend, hstop]
        · simp only [accepted, if_true]
          rw [← hsplit]
          exact (List.prefix_append_right_inj data).mpr hacc
        · intro hcov hlt
          have hsub : subSizeT to_send data.length = to_send - data.length :=
            subSizeT_of_le _ _ (by omega) hlt
          rw [hsub] at hts
          have := hts (by omega) (by omega)
          simp only [accepted, if_true, List.length_append]
          omega

theorem eq_of_toSizeT_eq (x : Int) (m : Nat) (hlo : -(2 ^ 63 : Int) ≤ x) (hhi : x < 2 ^ 63)
    (hm : m < 2 ^ 63) (h : toSizeT x = m) : x = (m : Int) := by
  unfold toSizeT at h
  have hM : (SIZE_MOD : Int) = 18446744073709551616 := by
    unfold SIZE_MOD; norm_num
  rw [hM] at h
  have h63 : (2 ^ 63 : Int) = 9223372036854775808 := by norm_num
  have h63n : (2 ^ 63 : Nat) = 9223372036854775808 := by norm_num
  rw [h63] at hlo hhi
  rw [h63n] at hm
  omega

theorem take_split_chunk (l : List Char) (n ts : Nat) :
    l.take (min n ts) ++ (l.drop n).take (ts - min n ts) = l.take ts := by
  have e : ts = min n ts + (ts - min n ts) := by omega
  conv_rhs => rw [e, List.take_add]
  by_cases hc : n ≤ ts
  · rw [Nat.min_eq_left hc]
  · have z : ts - min n ts = 0 := by omega
    rw [z]
    simp

/-- One pass of the loop of `SendPartialResponse`: the read delivers `data`, the send
function is asked to send its first `sending` bytes, where `sending` is the smaller of the
length of `data` and `to_send`, and answers. -/
theorem partialLoop_answer_step (chunk : Nat → Nat) (answer : Nat → List Char → Nat → Int)
    (s : List Char) (f pos : Nat) (snk : List Char) (calls : Nat) (log : List Event)
    (buffer : List Char) (to_send available : Nat) (hav : 0 < available) (hts : 0 < to_send)
    (data : List Char) (hdata : data = (s.drop pos).take (min BUF_SIZE (chunk pos))) :
    partialLoop (traced (answerSys chunk answer)) (f + 1) ((⟨s, pos, snk⟩, calls), log) buffer
        to_send available
      = if toSizeT (answer calls (data.take (min data.length to_send))
            (min data.length to_send)) ≠ min data.length to_send then
          some (((⟨s, pos + data.length, snk⟩, calls + 1),
            log ++ [Event.read BUF_SIZE (data.length : Int) data]
              ++ [Event.send (data.take (min data.length to_send)) (min data.length to_send)
                    (answer calls (data.take (min data.length to_send))
                      (min data.length to_send))]), to_send)
        else
          partialLoop (traced (answerSys chunk answer)) f
            ((⟨s, pos + data.length, snk⟩, calls + 1),
              log ++ [Event.read BUF_SIZE (data.length : Int) data]
                ++ [Event.send (data.take (min data.length to_send)) (min data.length to_send)
                      (answer calls (data.take (min data.length to_send))
                        (min data.length to_send))])
            (store data buffer)
            (subSizeT to_send (toSizeT (answer calls (data.take (min data.length to_send))
              (min data.length to_send))))
            data.length := by
  have hn : data.length < SIZE_MOD := by
    have : data.length ≤ BUF_SIZE := by
      rw [hdata, List.length_take]; omega
    simp only [BUF_SIZE] at this
    simp only [SIZE_MOD]
    omega
  have h1 : toSizeT (data.length : Int) = data.length := toSizeT_natCast _ hn
  have hsend : (if data.length > to_send then to_send else data.length)
      = min data.length to_send := by
    split <;> omega
  have h3 : (store data buffer).take (min data.length to_send)
      = data.take (min data.length to_send) := store_take _ _ _ (by omega)
  rw [partialLoop]
  simp only [traced, answerSys, fileSys, hav, hts, and_self, if_true, ← hdata, h1, hsend, h3,
    gt_iff_lt]

/-- The loop of `SendPartialResponse` on a file source that holds the `to_send` bytes still
to come, whatever the send function answers within the range of `ssize_t`: it ends, a send
call answered with another count than its size is its last call, and the bytes of the calls
answered in full are a prefix of the next `to_send` bytes of the source. -/
theorem partialLoop_answer (chunk : Nat → Nat) (hchunk : ∀ p, 0 < chunk p)
    (answer : Nat → List Char → Nat → Int)
    (hans : ∀ i b n, n < 2 ^ 63 → -(2 ^ 63 : Int) ≤ answer i b n ∧ answer i b n < 2 ^ 63)
    (s : List Char) :
    ∀ (fuel pos : Nat) (snk : List Char) (calls : Nat) (log : List Event)
      (buffer : List Char) (to_send available : Nat),
    0 < available → pos + to_send ≤ s.length → to_send < SIZE_MOD → to_send + 1 ≤ fuel →
    ∃ w2 ext ts2, partialLoop (traced (answerSys chunk answer)) fuel
          ((⟨s, pos, snk⟩, calls), log) buffer to_send available
        = some ((w2, log ++ ext), ts2)
      ∧ stopsAtShortSend ext = true
      ∧ accepted ext <+: (s.drop pos).take to_send := by
  intro fuel
  induction fuel with
  | zero => intro pos snk calls log buffer to_send available _ _ _ h; omega
  | succ f ih =>
    intro pos snk calls log buffer to_send available hav hpos hlt hfuel
    by_cases hts : to_send = 0
    · subst hts
      refine ⟨(⟨s, pos, snk⟩, calls), [], 0, ?_, rfl, by simp [accepted]⟩
      rw [partialLoop]
      simp
    · have hts2 : 0 < to_send := Nat.pos_of_ne_zero hts
      obtain ⟨data, hdata⟩ : ∃ data, data = (s.drop pos).take (min BUF_SIZE (chunk pos)) :=
        ⟨_, rfl⟩
      rw [partialLoop_answer_step chunk answer s f pos snk calls log buffer to_send available
        hav hts2 data hdata]
      have hlen : data.length = min (min BUF_SIZE (chunk pos)) (s.length - pos) := by
        rw [hdata, List.length_take, List.length_drop]
      have hc := hchunk pos
      have hB : BUF_SIZE = 131072 := by decide
      have htk : data.take (min data.length to_send)
          = (s.drop pos).take (min data.length to_send) := by
        rw [hdata]
        exact take_take_length _ _ _ (by omega)
      have hpre : data.take (min data.length to_send) <+: (s.drop pos).take to_send := by
        rw [htk, ← take_split_chunk (s.drop pos) data.length to_send]
        exact List.prefix_append _ _
      by_cases hr : toSizeT (answer calls (data.take (min data.length to_send))
          (min data.length to_send)) ≠ min data.length to_send
      · rw [if_pos hr]
        refine ⟨(⟨s, pos + data.length, snk⟩, calls + 1),
          [Event.read BUF_SIZE (data.length : Int) data,
            Event.send (data.take (min data.length to_send)) (min data.length to_send)
              (answer calls (data.take (min data.length to_send)) (min data.length to_send))],
          to_send, by simp, ?_, ?_⟩
        · simp [stopsAtShortSend]
        · simp only [accepted, List.append_nil]
          split
          · exact hpre
          · exact List.nil_prefix
      · rw [if_neg hr]
        have hr2 : toSizeT (answer calls (data.take (min data.length to_send))
            (min data.length to_send)) = min data.length to_send := by
          by_contra h; exact hr h
        have hsmall : min data.length to_send < 2 ^ 63 := by
          have : min data.length to_send ≤ 131072 := by omega
          have h63n : (2 ^ 63 : Nat) = 9223372036854775808 := by norm_num
          omega
        have hret : answer calls (data.take (min data.length to_send))
            (min data.length to_send) = ((min data.length to_send : Nat) : Int) :=
          eq_of_toSizeT_eq _ _ (hans _ _ _ hsmall).1 (hans _ _ _ hsmall).2 hsmall hr2
        rw [hr2, subSizeT_of_le _ _ (by omega) hlt]
        obtain ⟨w2, ext, ts2, hrun, hstop, hacc⟩ := ih (pos + data.length) snk (calls + 1)
          (log ++ [Event.read BUF_SIZE (data.length : Int) data]
            ++ [Event.send (data.take (min data.length to_send)) (min data.length to_send)
                  (answer calls (data.take (min data.length to_send))
                    (min data.length to_send))])
          (store data buffer) (to_send - min data.length to_send) data.length
          (by omega) (by omega) (by omega) (by omega)
        rw [hrun]
        refine ⟨w2, Event.read BUF_SIZE (data.length : Int) data
          :: Event.send (data.take (min data.length to_send)) (min data.length to_send)
              (answer calls (data.take (min data.length to_send)) (min data.length to_send))
          :: ext, ts2, by simp, ?_, ?_⟩
        · simp [stopsAtShortSend, hstop, hret]
        · simp only [accepted, hret, if_true]
          rw [htk, ← take_split_chunk (s.drop pos) data.length to_send, List.drop_drop]
          exact (List.prefix_append_right_inj _).mpr hacc

set_option maxRecDepth 100000

/-! ## Claims on the parser -/

/-- C1: on a receive that delivers a request line `M U V` (no space in `M` and `U`), header
lines `Hs` (each non-empty) and a blank line, every line closed by CR LF, followed by any body,
where no line contains CR LF, no line contains a NUL and the input has at most 131071 bytes,
`ParseRequest` returns a request with method `M`, URI `U`, version `V`, headers `Hs` in the
same order and content `body` of length `body.length`; the body is not restricted. -/
theorem C1_ParseRequest_wellformed_input (recv : Nat → RecvResult) (M U V : List Char)
    (Hs : List (List Char)) (body : List Char)
    (hM : ' ' ∉ M) (hU : ' ' ∉ U)
    (hne : ∀ h ∈ Hs, h ≠ [])
    (hcr : ∀ l ∈ (M ++ ' ' :: (U ++ ' ' :: V)) :: Hs, ¬ CRLF <:+: l)
    (hnul : ∀ l ∈ (M ++ ' ' :: (U ++ ' ' :: V)) :: Hs, '\x00' ∉ l)
    (hrecv : recv (BUF_SIZE - 1) = .ok ((M ++ ' ' :: (U ++ ' ' :: V)) ++ CRLF
      ++ (Hs.map (fun h => h ++ CRLF)).flatten ++ CRLF ++ body))
    (hlen : ((M ++ ' ' :: (U ++ ' ' :: V)) ++ CRLF
      ++ (Hs.map (fun h => h ++ CRLF)).flatten ++ CRLF ++ body).length ≤ 131071) :
    ParseRequest recv = .request
      { method_ := M
        request_uri_ := U
        http_version_ := V
        headers_ := Hs
        content_ := body
        content_length_ := body.length } :=
  ParseRequest_wellformed recv M U V Hs body hM hU
    (hnul _ (List.mem_cons_self _ _)) (hcr _ (List.mem_cons_self _ _))
    (fun h hh => ⟨hne h hh, hnul h (List.mem_cons_of_mem _ hh), hcr h (List.mem_cons_of_mem _ hh)⟩)
    hrecv hlen

/-- C1, on the request of the test `ParseRequest1Success`, here with a body that holds CR LF
and a blank line. -/
theorem C1_ParseRequest_wellformed_input_witness :
    ParseRequest (file_reader ("GET / HTTP/1.1\r\nHost: 192.168.86.2\r\n"
      ++ "User-Agent: curl/7.52.1\r\nAccept: */*\r\n\r\na\r\n\r\nb").toList) = .request
      { method_ := "GET".toList
        request_uri_ := "/".toList
        http_version_ := "HTTP/1.1".toList
        headers_ := ["Host: 192.168.86.2".toList, "User-Agent: curl/7.52.1".toList,
          "Accept: */*".toList]
        content_ := "a\r\n\r\nb".toList
        content_length_ := "a\r\n\r\nb".toList.length } :=
  C1_ParseRequest_wellformed_input
    (file_reader ("GET / HTTP/1.1\r\nHost: 192.168.86.2\r\n"
      ++ "User-Agent: curl/7.52.1\r\nAccept: */*\r\n\r\na\r\n\r\nb").toList)
    "GET".toList "/".toList "HTTP/1.1".toList
    ["Host: 192.168.86.2".toList, "User-Agent: curl/7.52.1".toList, "Accept: */*".toList]
    "a\r\n\r\nb".toList
    (by decide) (by decide) (by decide) (by decide) (by decide) (by decide) (by decide)

/-- C2: `ParseRequest` returns null on every received input that holds no CR LF at all (the
empty input is one) and on every received input that begins with CR LF. -/
theorem C2_ParseRequest_null (recv : Nat → RecvResult) (d : List Char)
    (hrecv : recv (BUF_SIZE - 1) = .ok d) (h : ¬ CRLF <:+: d ∨ CRLF <+: d) :
    ParseRequest recv = .null := by
  unfold ParseRequest
  rw [hrecv]
  simp only
  unfold parseLoop
  rw [List.drop_zero]
  rcases h with h | h
  · rw [strstr_none_of_no_crlf d h]
  · obtain ⟨rest, rfl⟩ := h
    have hs : strstr (CRLF ++ rest) CRLF = some 0 :=
      strstr_line [] rest (by simp) (by simp [CRLF])
    rw [hs]
    simp [endOfHeader]

/-- C2, on the five inputs of the test `ParseRequestFailure`. -/
theorem C2_ParseRequest_null_witness :
    ParseRequest (file_reader "".toList) = .null
    ∧ ParseRequest (file_reader "\r\n".toList) = .null
    ∧ ParseRequest (file_reader "\r\n\r\n".toList) = .null
    ∧ ParseRequest (file_reader "asdfasdfasdfasdfasdfasdf".toList) = .null
    ∧ ParseRequest (file_reader "\r\nasdfasdfasdf".toList) = .null :=
  ⟨C2_ParseRequest_null _ "".toList (by decide) (Or.inl (by decide)),
   C2_ParseRequest_null _ "\r\n".toList (by decide) (Or.inr (by decide)),
   C2_ParseRequest_null _ "\r\n\r\n".toList (by decide) (Or.inr (by decide)),
   C2_ParseRequest_null _ "asdfasdfasdfasdfasdfasdf".toList (by decide) (Or.inl (by decide)),
   C2_ParseRequest_null _ "\r\nasdfasdfasdf".toList (by decide) (Or.inr (by decide))⟩

/-- C8: when `ParseRequest` succeeds on an input whose first line `L` holds at least two
spaces, the method is the part of `L` before its first space, the URI the part between the
first and the second space and the version all that follows the second space; so method and
URI hold no space, and method, space, URI, space, version is `L` again. -/
theorem C8_ParseRequest_three_tokens (recv : Nat → RecvResult) (d L rest : List Char)
    (r : HttpRequest)
    (hrecv : recv (BUF_SIZE - 1) = .ok d) (hlen : d.length ≤ BUF_SIZE - 1)
    (hd : d = L ++ CRLF ++ rest) (hL : ¬ CRLF <:+: L)
    (hok : ParseRequest recv = .request r)
    (hsp : 2 ≤ L.count ' ') :
    r.method_ = L.takeWhile (fun c => c != ' ')
    ∧ r.request_uri_ = ((L.dropWhile (fun c => c != ' ')).drop 1).takeWhile (fun c => c != ' ')
    ∧ r.http_version_
        = (((L.dropWhile (fun c => c != ' ')).drop 1).dropWhile (fun c => c != ' ')).drop 1
    ∧ ' ' ∉ r.method_ ∧ ' ' ∉ r.request_uri_
    ∧ r.method_ ++ ' ' :: (r.request_uri_ ++ ' ' :: r.http_version_) = L := by
  obtain ⟨content, others, he⟩ := ParseRequest_firstLine recv d L rest r hrecv hd hL hok
  obtain ⟨a, b, v, rfl, ha, hb⟩ := exists_two_spaces L hsp
  have hsize : (a ++ ' ' :: (b ++ ' ' :: v)).length < SIZE_MOD := by
    have : (a ++ ' ' :: (b ++ ' ' :: v)).length ≤ d.length := by
      rw [hd]; simp only [List.length_append]; omega
    simp only [BUF_SIZE] at hlen
    simp only [SIZE_MOD]
    omega
  rw [endOfHeader_requestLine d d.length content a b v others ha hb hsize] at he
  have hr : r = _ := (ParseOutcome.request.inj he).symm
  subst hr
  simp only [takeWhile_until _ _ _ ha, dropWhile_until _ _ _ ha, List.drop_succ_cons,
    List.drop_zero, takeWhile_until _ _ _ hb, dropWhile_until _ _ _ hb]
  exact ⟨trivial, trivial, trivial, ha, hb, trivial⟩

/-- C8, on the request line of the test `ParseRequest2Success`. -/
theorem C8_ParseRequest_three_tokens_witness :
    ∃ r, ParseRequest (file_reader "GET /hello.htm HTTP/1.1\r\nA: b\r\n\r\n".toList) = .request r
    ∧ r.method_ = "GET".toList ∧ r.request_uri_ = "/hello.htm".toList
    ∧ r.http_version_ = "HTTP/1.1".toList :=
  ⟨⟨"GET".toList, "/hello.htm".toList, "HTTP/1.1".toList, ["A: b".toList], [], 0⟩, by decide,
    (C8_ParseRequest_three_tokens
      (file_reader "GET /hello.htm HTTP/1.1\r\nA: b\r\n\r\n".toList)
      "GET /hello.htm HTTP/1.1\r\nA: b\r\n\r\n".toList
      "GET /hello.htm HTTP/1.1".toList "A: b\r\n\r\n".toList
      ⟨"GET".toList, "/hello.htm".toList, "HTTP/1.1".toList, ["A: b".toList], [], 0⟩
      (by decide) (by decide) (by decide) (by decide) (by decide) (by decide)).1,
    rfl, rfl⟩

/-! ## Claims on the senders -/

/-- C3: on a source file with content `s` (at most `2 ^ 63 - 1` bytes, the range of a file
offset), with `start <= end_ < s.length`, reads that deliver any positive number of the
remaining bytes and a send function that takes every byte, `SendPartialResponse` returns with
nothing left to send and has written to the destination exactly the status line of a 206
response, the headers `Content-Type: type`, `Content-Length: end_ - start + 1`,
`Accept-Ranges: bytes`, `Content-Range: start-end_/total`, a blank line, and then the
`end_ - start + 1` bytes of `s` at the offsets `start` to `end_`. -/
theorem C3_SendPartialResponse_writes_slice (chunk : Nat → Nat) (hchunk : ∀ p, 0 < chunk p)
    (type s : List Char) (pos total start end_ fuel : Nat)
    (hse : start ≤ end_) (hend : end_ < s.length) (hsize : s.length < 2 ^ 63)
    (hfuel : end_ - start + 2 ≤ fuel) :
    ∃ w, SendPartialResponse (fileSys chunk) fuel type total start end_ ⟨s, pos, []⟩
        = some (w, 0)
      ∧ w.snk = "HTTP/1.0 206 Partial Content\r\nContent-Type: ".toList ++ type
          ++ "\r\nContent-Length: ".toList ++ decimal (end_ - start + 1)
          ++ "\r\nAccept-Ranges: bytes\r\nContent-Range: ".toList ++ decimal start
          ++ "-".toList ++ decimal end_ ++ "/".toList ++ decimal total ++ "\r\n\r\n".toList
          ++ (s.drop start).take (end_ - start + 1)
      ∧ ((s.drop start).take (end_ - start + 1)).length = end_ - start + 1
      ∧ ∀ i, i ≤ end_ - start → ((s.drop start).take (end_ - start + 1))[i]? = s[start + i]? := by
  obtain ⟨pos2, h⟩ := SendPartialResponse_file chunk hchunk type s [] pos total start end_ fuel
    hse hend hsize hfuel
  refine ⟨_, h, ?_, ?_, ?_⟩
  · simp [partialHeader]
  · rw [List.length_take, List.length_drop]; omega
  · intro i hi
    rw [List.getElem?_take_of_lt (by omega), List.getElem?_drop]

/-- C3, on the test `SendPartialResponseSuccess`: total 16, start 2, end 8. -/
theorem C3_SendPartialResponse_writes_slice_witness :
    (SendPartialResponse (fileSys (fun _ => BUF_SIZE)) 8 "type".toList 16 2 8
      ⟨("a1a2a3a4a5a6a7a8a9a0b1b2b3b4b5b6b7b8b9b0c1c2c3c4c5c6c7c8c9c0"
        ++ "d1d2d3d4d5d6d7d8d9d0e1e2e3e4e5e6e7e8e9e0").toList, 0, []⟩).map (fun r => r.1.snk)
      = some ("HTTP/1.0 206 Partial Content\r\nContent-Type: type\r\nContent-Length: 7\r\n"
        ++ "Accept-Ranges: bytes\r\nContent-Range: 2-8/16\r\n\r\na2a3a4a").toList := by
  obtain ⟨w, h1, h2, _⟩ := C3_SendPartialResponse_writes_slice (fun _ => BUF_SIZE)
    (fun _ => (by decide : 0 < BUF_SIZE)) "type".toList
    ("a1a2a3a4a5a6a7a8a9a0b1b2b3b4b5b6b7b8b9b0c1c2c3c4c5c6c7c8c9c0"
      ++ "d1d2d3d4d5d6d7d8d9d0e1e2e3e4e5e6e7e8e9e0").toList 0 16 2 8 8
    (by decide) (by decide) (by decide) (by decide)
  rw [h1, Option.map_some', h2]
  decide

/-- C4 fails as stated: with length 2 on the source `XYZ` the body sent is `XYZ`, not `XY`. -/
theorem C4_SendResponse_sends_past_length :
    (SendResponse (fileSys (fun _ => BUF_SIZE)) 5 "type".toList 2
        ⟨"XYZ".toList, 0, []⟩).map (fun r => r.1.snk)
      = some ("HTTP/1.0 200 OK\r\nContent-Type: type\r\nContent-Length: 2\r\n"
          ++ "Accept-Ranges: bytes\r\n\r\nXYZ").toList
    ∧ ("HTTP/1.0 200 OK\r\nContent-Type: type\r\nContent-Length: 2\r\n"
          ++ "Accept-Ranges: bytes\r\n\r\nXYZ").toList
      ≠ ("HTTP/1.0 200 OK\r\nContent-Type: type\r\nContent-Length: 2\r\n"
          ++ "Accept-Ranges: bytes\r\n\r\nXY").toList := by
  decide

/-- C4 as amended: on a source file with at least `n` bytes and a send function that takes
every byte, `SendResponse(type, src, n)` writes the header block with `Content-Length: n`,
then the first `n` bytes of the source, then all bytes of the source that follow them; it
writes nothing after the first `n` bytes exactly when the source has `n` bytes. -/
theorem C4_SendResponse_first_bytes_and_rest (chunk : Nat → Nat) (hchunk : ∀ p, 0 < chunk p)
    (type s : List Char) (n fuel : Nat) (hn : n ≤ s.length) (hfuel : s.length + 2 ≤ fuel) :
    ∃ r, SendResponse (fileSys chunk) fuel type n ⟨s, 0, []⟩ = some r
      ∧ r.1.snk = "HTTP/1.0 200 OK\r\nContent-Type: ".toList ++ type
          ++ "\r\nContent-Length: ".toList ++ decimal n
          ++ "\r\nAccept-Ranges: bytes\r\n\r\n".toList ++ s.take n ++ s.drop n
      ∧ (r.1.snk = "HTTP/1.0 200 OK\r\nContent-Type: ".toList ++ type
          ++ "\r\nContent-Length: ".toList ++ decimal n
          ++ "\r\nAccept-Ranges: bytes\r\n\r\n".toList ++ s.take n ↔ s.length = n) := by
  obtain ⟨ts, h⟩ := SendResponse_file chunk hchunk type s [] n fuel hfuel
  have hsnk : ([] : List Char) ++ responseHeader type n ++ s
      = "HTTP/1.0 200 OK\r\nContent-Type: ".toList ++ type
          ++ "\r\nContent-Length: ".toList ++ decimal n
          ++ "\r\nAccept-Ranges: bytes\r\n\r\n".toList ++ s.take n ++ s.drop n := by
    rw [List.append_assoc _ (s.take n), List.take_append_drop]
    simp [responseHeader]
  refine ⟨_, h, hsnk, ?_⟩
  simp only [hsnk]
  constructor
  · intro e
    have hd : s.drop n = [] := by
      have := congrArg List.length e
      simp only [List.length_append] at this
      exact List.length_eq_zero.mp (by omega)
    have := congrArg List.length hd
    simp only [List.length_drop, List.length_nil] at this
    omega
  · intro e
    rw [← e, List.drop_length, List.append_nil]

/-- C4 as amended, on a source of five bytes with length 2. -/
theorem C4_SendResponse_first_bytes_and_rest_witness :
    (SendResponse (fileSys (fun _ => 2)) 7 "type".toList 2
        ⟨"XYZ12".toList, 0, []⟩).map (fun r => r.1.snk)
      = some ("HTTP/1.0 200 OK\r\nContent-Type: type\r\nContent-Length: 2\r\n"
          ++ "Accept-Ranges: bytes\r\n\r\nXY" ++ "Z12").toList := by
  obtain ⟨r, h1, h2, _⟩ := C4_SendResponse_first_bytes_and_rest (fun _ => 2)
    (fun _ => (by decide : 0 < 2)) "type".toList "XYZ12".toList 2 7 (by decide) (by decide)
  rw [h1, Option.map_some', h2]
  decide

/-- C5: on a source file with content `s`, read from its start, and a send function that
takes every byte, `SendResponse(type, src, n)` returns and has written the header block with
`Content-Length: n` followed by the whole of `s`, whatever `n` is. -/
theorem C5_SendResponse_writes_whole_source (chunk : Nat → Nat) (hchunk : ∀ p, 0 < chunk p)
    (type s : List Char) (n fuel : Nat) (hfuel : s.length + 2 ≤ fuel) :
    ∃ r, SendResponse (fileSys chunk) fuel type n ⟨s, 0, []⟩ = some r
      ∧ r.1.snk = "HTTP/1.0 200 OK\r\nContent-Type: ".toList ++ type
          ++ "\r\nContent-Length: ".toList ++ decimal n
          ++ "\r\nAccept-Ranges: bytes\r\n\r\n".toList ++ s := by
  obtain ⟨ts, h⟩ := SendResponse_file chunk hchunk type s [] n fuel hfuel
  refine ⟨_, h, ?_⟩
  simp [responseHeader]

/-- C5, on the test `SendResponseSuccess`: length 2 and a payload of five lines. -/
theorem C5_SendResponse_writes_whole_source_witness :
    (SendResponse (fileSys (fun _ => BUF_SIZE)) 200 "type".toList 2
        ⟨("GET /hello.htm HTTP/1.1\r\n"
          ++ "User-Agent: Mozilla/4.0 (compatible; MSIE5.01; Windows NT)\r\n"
          ++ "Accept-Language: en-us\r\nAccept-Encoding: gzip, deflate\r\n"
          ++ "Connection: Keep-Alive\r\n").toList, 0, []⟩).map (fun r => r.1.snk)
      = some ("HTTP/1.0 200 OK\r\nContent-Type: type\r\nContent-Length: 2\r\n"
          ++ "Accept-Ranges: bytes\r\n\r\n"
          ++ "GET /hello.htm HTTP/1.1\r\n"
          ++ "User-Agent: Mozilla/4.0 (compatible; MSIE5.01; Windows NT)\r\n"
          ++ "Accept-Language: en-us\r\nAccept-Encoding: gzip, deflate\r\n"
          ++ "Connection: Keep-Alive\r\n").toList := by
  obtain ⟨r, h1, h2⟩ := C5_SendResponse_writes_whole_source (fun _ => BUF_SIZE)
    (fun _ => (by decide : 0 < BUF_SIZE)) "type".toList
    ("GET /hello.htm HTTP/1.1\r\n"
      ++ "User-Agent: Mozilla/4.0 (compatible; MSIE5.01; Windows NT)\r\n"
      ++ "Accept-Language: en-us\r\nAccept-Encoding: gzip, deflate\r\n"
      ++ "Connection: Keep-Alive\r\n").toList 2 200 (by decide)
  rw [h1, Option.map_some', h2]
  decide

/-- C6: whatever the send function does, `SendHtmlResponse(c)` calls it exactly once; the
bytes handed over are a header block that ends in a blank line, followed by exactly `c`; the
`Content-Length` line of the block carries the decimal digits of `c.length`; and the number
of bytes handed over is the length of the block plus `c.length`. -/
theorem C6_SendHtmlResponse_single_send {σ : Type} (sys : Sys σ) (w : σ) (c : List Char) :
    ∃ hdr, hdr = "HTTP/1.0 200 OK\r\nContent-Type:text/html\r\nContent-Length:".toList
          ++ decimal c.length ++ "\r\nAccept-Ranges: bytes\r\n\r\n".toList
      ∧ "\r\n\r\n".toList <:+ hdr
      ∧ (SendHtmlResponse (traced sys) c (w, [])).2
          = [Event.send (hdr ++ c) (hdr.length + c.length)
              (sys.send w (hdr ++ c) (hdr.length + c.length)).1]
      ∧ (SendHtmlResponse (traced sys) c (w, [])).1
          = (sys.send w (hdr ++ c) (hdr.length + c.length)).2 := by
  refine ⟨_, rfl, ?_, ?_, ?_⟩
  · exact ⟨"HTTP/1.0 200 OK\r\nContent-Type:text/html\r\nContent-Length:".toList
      ++ decimal c.length ++ "\r\nAccept-Ranges: bytes".toList, by simp⟩
  · have e : htmlResponseText c
        = "HTTP/1.0 200 OK\r\nContent-Type:text/html\r\nContent-Length:".toList
          ++ decimal c.length ++ "\r\nAccept-Ranges: bytes\r\n\r\n".toList ++ c := by
      simp [htmlResponseText]
    simp only [SendHtmlResponse, traced, e, List.nil_append, List.take_length]
    simp only [List.length_append]
  · have e : htmlResponseText c
        = "HTTP/1.0 200 OK\r\nContent-Type:text/html\r\nContent-Length:".toList
          ++ decimal c.length ++ "\r\nAccept-Ranges: bytes\r\n\r\n".toList ++ c := by
      simp [htmlResponseText]
    simp only [SendHtmlResponse, traced, e]
    simp only [List.length_append]

/-- C7 fails on the code: for the content `hi` the bytes sent carry `Content-Type:text/html`
and `Content-Length:2` with no space after the colon, where `SendResponse` for the same type
and length writes `Content-Type: text/html` and `Content-Length: 2`. -/
theorem C7_SendHtmlResponse_no_space_after_colon :
    (SendHtmlResponse (traced (fileSys (fun _ => BUF_SIZE))) "hi".toList (⟨[], 0, []⟩, [])).2
      = [Event.send ("HTTP/1.0 200 OK\r\nContent-Type:text/html\r\nContent-Length:2\r\n"
          ++ "Accept-Ranges: bytes\r\n\r\nhi").toList 85 85]
    ∧ ("HTTP/1.0 200 OK\r\nContent-Type:text/html\r\nContent-Length:2\r\n"
          ++ "Accept-Ranges: bytes\r\n\r\nhi").toList
      ≠ ("HTTP/1.0 200 OK\r\nContent-Type: text/html\r\nContent-Length: 2\r\n"
          ++ "Accept-Ranges: bytes\r\n\r\nhi").toList
    ∧ (SendResponse (fileSys (fun _ => BUF_SIZE)) 4 "text/html".toList 2
        ⟨"hi".toList, 0, []⟩).map (fun r => r.1.snk)
      = some ("HTTP/1.0 200 OK\r\nContent-Type: text/html\r\nContent-Length: 2\r\n"
          ++ "Accept-Ranges: bytes\r\n\r\nhi").toList := by
  decide

/-! ## Claims on the round trip -/

/-- C9: when the bytes `SendHtmlResponse(c)` writes, at most 131071 of them, are what the
receive call of `ParseRequest` delivers, the parse succeeds and the content of the request
is `c`, with content length `c.length`; `c` is not restricted. -/
theorem C9_roundtrip_content (chunk : Nat → Nat) (src : List Char) (pos : Nat)
    (c : List Char) (recv : Nat → RecvResult)
    (hrecv : recv (BUF_SIZE - 1)
      = .ok (SendHtmlResponse (fileSys chunk) c ⟨src, pos, []⟩).snk)
    (hfit : (SendHtmlResponse (fileSys chunk) c ⟨src, pos, []⟩).snk.length ≤ 131071) :
    ∃ r, ParseRequest recv = .request r ∧ r.content_ = c ∧ r.content_length_ = c.length := by
  rw [SendHtmlResponse_file] at hrecv hfit
  simp only [List.nil_append] at hrecv hfit
  exact ⟨_, ParseRequest_htmlResponse recv c hrecv hfit, rfl, rfl⟩

/-- C9, on a content that holds CR LF, a blank line and a NUL. -/
theorem C9_roundtrip_content_witness :
    ∃ r, ParseRequest (file_reader
        (SendHtmlResponse (fileSys (fun _ => BUF_SIZE)) "a\r\n\r\nb\x00c".toList ⟨[], 0, []⟩).snk)
        = .request r
      ∧ r.content_ = "a\r\n\r\nb\x00c".toList ∧ r.content_length_ = 8 :=
  C9_roundtrip_content (fun _ => BUF_SIZE) [] 0 "a\r\n\r\nb\x00c".toList
    (file_reader
      (SendHtmlResponse (fileSys (fun _ => BUF_SIZE)) "a\r\n\r\nb\x00c".toList ⟨[], 0, []⟩).snk)
    (by decide) (by decide)

/-- C10 fails as stated: parsing the bytes sent for the empty content gives three headers. -/
theorem C10_roundtrip_headers_not_empty :
    ParseRequest (file_reader
        (SendHtmlResponse (fileSys (fun _ => BUF_SIZE)) [] ⟨[], 0, []⟩).snk)
      = .request
          { method_ := "HTTP/1.0".toList
            request_uri_ := "200".toList
            http_version_ := "OK".toList
            headers_ := ["Content-Type:text/html".toList, "Content-Length:0".toList,
              "Accept-Ranges: bytes".toList]
            content_ := []
            content_length_ := 0 }
    ∧ ["Content-Type:text/html".toList, "Content-Length:0".toList,
        "Accept-Ranges: bytes".toList] ≠ [] := by
  decide

/-- C10 as amended: when the bytes `SendHtmlResponse(c)` writes, at most 131071 of them, are
what the receive call of `ParseRequest` delivers, the parse succeeds and the headers of the
request are the three header lines of the response, in their order: `Content-Type:text/html`,
`Content-Length:` followed by the digits of `c.length`, and `Accept-Ranges: bytes`; the status
line is taken as the request line: method `HTTP/1.0`, URI `200`, version `OK`. -/
theorem C10_roundtrip_headers (chunk : Nat → Nat) (src : List Char) (pos : Nat)
    (c : List Char) (recv : Nat → RecvResult)
    (hrecv : recv (BUF_SIZE - 1)
      = .ok (SendHtmlResponse (fileSys chunk) c ⟨src, pos, []⟩).snk)
    (hfit : (SendHtmlResponse (fileSys chunk) c ⟨src, pos, []⟩).snk.length ≤ 131071) :
    ∃ r, ParseRequest recv = .request r
      ∧ r.headers_ = ["Content-Type:text/html".toList,
          "Content-Length:".toList ++ decimal c.length, "Accept-Ranges: bytes".toList]
      ∧ r.headers_.length = 3
      ∧ r.method_ = "HTTP/1.0".toList
      ∧ r.request_uri_ = "200".toList
      ∧ r.http_version_ = "OK".toList := by
  rw [SendHtmlResponse_file] at hrecv hfit
  simp only [List.nil_append] at hrecv hfit
  exact ⟨_, ParseRequest_htmlResponse recv c hrecv hfit, rfl, rfl, rfl, rfl, rfl⟩

/-- C10 as amended, on the content `hello`. -/
theorem C10_roundtrip_headers_witness :
    ∃ r, ParseRequest (file_reader
        (SendHtmlResponse (fileSys (fun _ => BUF_SIZE)) "hello".toList ⟨[], 0, []⟩).snk)
        = .request r
      ∧ r.headers_ = ["Content-Type:text/html".toList,
          "Content-Length:".toList ++ decimal 5, "Accept-Ranges: bytes".toList]
      ∧ r.headers_.length = 3
      ∧ r.method_ = "HTTP/1.0".toList
      ∧ r.request_uri_ = "200".toList
      ∧ r.http_version_ = "OK".toList :=
  C10_roundtrip_headers (fun _ => BUF_SIZE) [] 0 "hello".toList
    (file_reader
      (SendHtmlResponse (fileSys (fun _ => BUF_SIZE)) "hello".toList ⟨[], 0, []⟩).snk)
    (by decide) (by decide)

/-! ## Claims on the parser, continued -/

/-- C11: when `ParseRequest` succeeds on the input `d`, `d` is a first line `L` and lines `Hs`,
each closed by CR LF, then a blank line and a body, and the headers returned are exactly `Hs`
in their order: one fewer than the lines before the blank line, the `i`-th header being line
`i + 1`; no header is empty and none holds CR LF.  The lines are those of `d`: every reading
of `d` as non-empty lines without CR LF, a blank line and a body gives the same headers. -/
theorem C11_ParseRequest_headers_are_later_lines (recv : Nat → RecvResult) (d : List Char)
    (r : HttpRequest) (hrecv : recv (BUF_SIZE - 1) = .ok d)
    (hok : ParseRequest recv = .request r) :
    ∃ L Hs body, d = L ++ CRLF ++ (Hs.map (fun h => h ++ CRLF)).flatten ++ CRLF ++ body
      ∧ (∀ l ∈ L :: Hs, l ≠ [] ∧ ¬ CRLF <:+: l)
      ∧ r.headers_ = Hs
      ∧ r.headers_.length + 1 = (L :: Hs).length
      ∧ (∀ i, r.headers_[i]? = (L :: Hs)[i + 1]?)
      ∧ (∀ h ∈ r.headers_, h ≠ [] ∧ ¬ CRLF <:+: h)
      ∧ (∀ L2 Hs2 body2,
          d = L2 ++ CRLF ++ (Hs2.map (fun h => h ++ CRLF)).flatten ++ CRLF ++ body2 →
          (∀ l ∈ L2 :: Hs2, l ≠ [] ∧ ¬ CRLF <:+: l) → r.headers_ = Hs2) := by
  obtain ⟨L, Hs, body, hd, hall, he⟩ := ParseRequest_request_inv recv d r hrecv hok
  have hh : r.headers_ = Hs := (endOfHeader_request_fields _ _ _ _ _ _ he).2.2.2.1
  have hall2 : ∀ l ∈ L :: Hs, l ≠ [] ∧ ¬ CRLF <:+: l := fun l hl =>
    ⟨(hall l hl).1, (hall l hl).2.2⟩
  refine ⟨L, Hs, body, hd, hall2, hh, by rw [hh]; simp, by rw [hh]; simp, ?_, ?_⟩
  · intro h hm
    rw [hh] at hm
    exact hall2 h (List.mem_cons_of_mem _ hm)
  · intro L2 Hs2 body2 hd2 hc2
    have e : ((L :: Hs).map (fun h => h ++ CRLF)).flatten ++ CRLF ++ body
        = ((L2 :: Hs2).map (fun h => h ++ CRLF)).flatten ++ CRLF ++ body2 := by
      have e1 : ((L :: Hs).map (fun h => h ++ CRLF)).flatten ++ CRLF ++ body = d := by
        rw [hd]; simp [List.append_assoc]
      have e2 : ((L2 :: Hs2).map (fun h => h ++ CRLF)).flatten ++ CRLF ++ body2 = d := by
        rw [hd2]; simp [List.append_assoc]
      rw [e1, e2]
    have := (lines_unique (L :: Hs) (L2 :: Hs2) body body2 hall2 hc2 e).1
    rw [hh]
    exact (List.cons.inj this).2

/-- C11, on an input with two header lines. -/
theorem C11_ParseRequest_headers_are_later_lines_witness :
    ∃ L Hs body, "GET / HTTP/1.1\r\nA: b\r\nC: d\r\n\r\nxy".toList
        = L ++ CRLF ++ (Hs.map (fun h => h ++ CRLF)).flatten ++ CRLF ++ body
      ∧ ["A: b".toList, "C: d".toList] = Hs
      ∧ L = "GET / HTTP/1.1".toList := by
  obtain ⟨L, Hs, body, hd, hc, hh, _, _, _, hu⟩ := C11_ParseRequest_headers_are_later_lines
    (file_reader "GET / HTTP/1.1\r\nA: b\r\nC: d\r\n\r\nxy".toList)
    "GET / HTTP/1.1\r\nA: b\r\nC: d\r\n\r\nxy".toList
    ⟨"GET".toList, "/".toList, "HTTP/1.1".toList, ["A: b".toList, "C: d".toList],
      "xy".toList, 2⟩
    (by decide) (by decide)
  refine ⟨L, Hs, body, hd, hh, ?_⟩
  have e : (("GET / HTTP/1.1".toList :: ["A: b".toList, "C: d".toList]).map
        (fun h => h ++ CRLF)).flatten ++ CRLF ++ "xy".toList
      = ((L :: Hs).map (fun h => h ++ CRLF)).flatten ++ CRLF ++ body := by
    have e2 : ((L :: Hs).map (fun h => h ++ CRLF)).flatten ++ CRLF ++ body
        = "GET / HTTP/1.1\r\nA: b\r\nC: d\r\n\r\nxy".toList := by
      rw [hd]; simp [List.append_assoc]
    rw [e2]
    decide
  have := (lines_unique _ _ _ _ (by decide) hc e).1
  exact (List.cons.inj this).1.symm

/-- C13: on a buffer of `len <= 131071` received bytes every boundary the scan finds, from
whatever offset `curr` it starts, lies at an offset `p = curr + k` with `p + 2 <= len`; so the
check `ptr - buffer > len` is never true, the loop runs as it would without the check, and
the body of a successful parse starts at an offset that does not exceed `len`: the content
length is `len` minus that offset, with no underflow, and is the number of content bytes. -/
theorem C13_overflow_branch_unreachable (d : List Char) (hlen : d.length ≤ BUF_SIZE - 1) :
    (∀ curr k, strstr (d.drop curr) CRLF = some k →
        curr + k + 2 ≤ d.length ∧ ¬ (curr + k > d.length))
    ∧ (∀ fuel curr acc, parseLoop fuel d d.length curr acc
        = parseLoopNoOverflowCheck fuel d d.length curr acc)
    ∧ (∀ recv r, recv (BUF_SIZE - 1) = .ok d → ParseRequest recv = .request r →
        ∃ p, p + 2 ≤ d.length ∧ r.content_ = d.drop (p + 2)
          ∧ (r.content_length_ : Int) = (d.length : Int) - ((p + 2 : Nat) : Int)
          ∧ r.content_length_ = r.content_.length) := by
  refine ⟨?_, fun fuel curr acc => parseLoop_eq_noOverflowCheck fuel d curr acc, ?_⟩
  · intro curr k hs
    have hb := strstr_bound _ k hs
    rw [List.length_drop] at hb
    omega
  · intro recv r hrecv hok
    obtain ⟨L, Hs, body, hd, _, he⟩ := ParseRequest_request_inv recv d r hrecv hok
    obtain ⟨_, _, _, _, hcl, hc⟩ := endOfHeader_request_fields _ _ _ _ _ _ he
    have hdl : d.length = L.length + 2 + ((Hs.map (fun h => h ++ CRLF)).flatten).length + 2
        + body.length := by
      have := congrArg List.length hd
      simp only [List.length_append, CRLF, List.length_cons, List.length_nil] at this ⊢
      omega
    have hcle := content_length_eq d.length
      (L.length + 2 + ((Hs.map (fun h => h ++ CRLF)).flatten).length + 2) (by omega)
      (by simp only [BUF_SIZE] at hlen; simp only [SIZE_MOD]; omega)
    rw [hcle] at hcl hc
    refine ⟨L.length + 2 + ((Hs.map (fun h => h ++ CRLF)).flatten).length, by omega, ?_, ?_, ?_⟩
    · rw [hc, List.take_of_length_le (by rw [List.length_drop])]
    · rw [hcl]; omega
    · rw [hcl, hc, List.length_take, List.length_drop]; omega

/-- C13, on the request of the test `ParseRequest1Success`: the scan from offset 16 finds the
end of the `Host` line 18 bytes on. -/
theorem C13_overflow_branch_unreachable_witness :
    strstr (("GET / HTTP/1.1\r\nHost: 192.168.86.2\r\n"
        ++ "User-Agent: curl/7.52.1\r\nAccept: */*\r\n\r\n").toList.drop 16) CRLF = some 18
    ∧ (16 + 18 + 2 ≤ ("GET / HTTP/1.1\r\nHost: 192.168.86.2\r\n"
        ++ "User-Agent: curl/7.52.1\r\nAccept: */*\r\n\r\n").toList.length
      ∧ ¬ (16 + 18 > ("GET / HTTP/1.1\r\nHost: 192.168.86.2\r\n"
        ++ "User-Agent: curl/7.52.1\r\nAccept: */*\r\n\r\n").toList.length)) :=
  ⟨by decide,
   (C13_overflow_branch_unreachable ("GET / HTTP/1.1\r\nHost: 192.168.86.2\r\n"
    ++ "User-Agent: curl/7.52.1\r\nAccept: */*\r\n\r\n").toList (by decide)).1 16 18
      (by decide)⟩

/-- C18: when `ParseRequest` succeeds on an input of at most 131071 bytes with first line `L`:
if `L` holds no space, method, URI and version are all `L`; if `L` holds exactly one space,
the method is the part before it, the URI the part after it and the version all of `L`.  The
split cannot fail: on a first line of this length the end-of-header branch returns a request
whatever the line holds, no string constructor is given a position past the end. -/
theorem C18_ParseRequest_fewer_than_two_spaces (recv : Nat → RecvResult) (d L rest : List Char)
    (r : HttpRequest)
    (hrecv : recv (BUF_SIZE - 1) = .ok d) (hlen : d.length ≤ BUF_SIZE - 1)
    (hd : d = L ++ CRLF ++ rest) (hL : ¬ CRLF <:+: L)
    (hok : ParseRequest recv = .request r) :
    (L.count ' ' = 0 → r.method_ = L ∧ r.request_uri_ = L ∧ r.http_version_ = L)
    ∧ (L.count ' ' = 1 → r.method_ = L.takeWhile (fun c => c != ' ')
        ∧ r.request_uri_ = (L.dropWhile (fun c => c != ' ')).drop 1
        ∧ r.http_version_ = L)
    ∧ (∀ buffer len content others,
        ∃ r2, endOfHeader buffer len content (L :: others) = .request r2)
    ∧ ParseRequest recv ≠ .threw := by
  obtain ⟨content, others, he⟩ := ParseRequest_firstLine recv d L rest r hrecv hd hL hok
  obtain ⟨hm, hu, hv, _⟩ := endOfHeader_request_fields _ _ _ _ _ _ he
  have hLlen : L.length ≤ 131071 := by
    have : L.length ≤ d.length := by rw [hd]; simp only [List.length_append]; omega
    simp only [BUF_SIZE] at hlen
    omega
  have hnpos : npos = 18446744073709551615 := by decide
  have hmod : SIZE_MOD = 18446744073709551616 := by decide
  have htake : ∀ (l : List Char) n, l.length ≤ n → l.take n = l :=
    fun l n h => List.take_of_length_le h
  refine ⟨?_, ?_, ?_, ?_⟩
  · intro h0
    have hno : ' ' ∉ L := List.count_eq_zero.mp h0
    have f1 : find_first_of L ' ' 0 = npos := by
      unfold find_first_of
      rw [List.drop_zero]
      exact findFrom_not_mem _ _ _ hno
    have p1 : (npos + 1) % SIZE_MOD = 0 := by decide
    have n2 : (npos + SIZE_MOD - 0) % SIZE_MOD = npos := by decide
    rw [f1] at hm hu hv
    rw [p1] at hu hv
    rw [f1] at hu hv
    rw [n2] at hu
    rw [p1] at hv
    rw [List.drop_zero] at hu hv
    exact ⟨by rw [hm]; exact htake _ _ (by omega), by rw [hu]; exact htake _ _ (by omega),
      by rw [hv]; exact htake _ _ (by omega)⟩
  · intro h1
    have hmem : ' ' ∈ L := List.count_pos_iff.mp (by omega)
    obtain ⟨a, b, hab, ha⟩ := List.eq_append_cons_of_mem hmem
    have hb : ' ' ∉ b := by
      rw [hab, List.count_append, List.count_cons_self, List.count_eq_zero_of_not_mem ha] at h1
      exact List.count_eq_zero.mp (by omega)
    subst hab
    simp only [List.length_append, List.length_cons] at hLlen
    have f1 : find_first_of (a ++ ' ' :: b) ' ' 0 = a.length := by
      simp [find_first_of, findFrom_append _ _ _ _ ha]
    have p1 : (a.length + 1) % SIZE_MOD = a.length + 1 := Nat.mod_eq_of_lt (by omega)
    have f2 : find_first_of (a ++ ' ' :: b) ' ' (a.length + 1) = npos := by
      simp only [find_first_of, drop_line]
      exact findFrom_not_mem _ _ _ hb
    have n2 : (npos + SIZE_MOD - (a.length + 1)) % SIZE_MOD = npos - (a.length + 1) := by
      have e : npos + SIZE_MOD - (a.length + 1) = (npos - (a.length + 1)) + SIZE_MOD := by omega
      rw [e, Nat.add_mod_right]
      exact Nat.mod_eq_of_lt (by omega)
    have p3 : (npos + 1) % SIZE_MOD = 0 := by decide
    rw [f1] at hm hu hv
    rw [p1] at hu hv
    rw [f2] at hu hv
    rw [n2, drop_line] at hu
    rw [p3, List.drop_zero] at hv
    refine ⟨?_, ?_, ?_⟩
    · rw [hm, takeWhile_until _ _ _ ha]
      exact take_line _ _
    · rw [hu, dropWhile_until _ _ _ ha]
      simp only [List.drop_succ_cons, List.drop_zero]
      exact htake _ _ (by omega)
    · rw [hv]
      exact htake _ _ (by simp only [List.length_append, List.length_cons]; omega)
  · intro buffer len content others
    exact endOfHeader_cons_isRequest buffer len content L others (by omega)
  · rw [hok]; simp

/-- C18, on a first line without a space and on one with a single space. -/
theorem C18_ParseRequest_fewer_than_two_spaces_witness :
    ParseRequest (file_reader "GET\r\n\r\n".toList) = .request
        ⟨"GET".toList, "GET".toList, "GET".toList, [], [], 0⟩
    ∧ ParseRequest (file_reader "GET /\r\n\r\n".toList) = .request
        ⟨"GET".toList, "/".toList, "GET /".toList, [], [], 0⟩
    ∧ "GET".toList = "GET /".toList.takeWhile (fun c => c != ' ')
    ∧ "/".toList = ("GET /".toList.dropWhile (fun c => c != ' ')).drop 1 :=
  ⟨by decide, by decide,
   ((C18_ParseRequest_fewer_than_two_spaces (file_reader "GET /\r\n\r\n".toList)
      "GET /\r\n\r\n".toList "GET /".toList "\r\n".toList
      ⟨"GET".toList, "/".toList, "GET /".toList, [], [], 0⟩
      (by decide) (by decide) (by decide) (by decide) (by decide)).2.1 (by decide)).1,
   ((C18_ParseRequest_fewer_than_two_spaces (file_reader "GET /\r\n\r\n".toList)
      "GET /\r\n\r\n".toList "GET /".toList "\r\n".toList
      ⟨"GET".toList, "/".toList, "GET /".toList, [], [], 0⟩
      (by decide) (by decide) (by decide) (by decide) (by decide)).2.1 (by decide)).2.1⟩

/-- C19: when `ParseRequest` succeeds on an input `d` of at most 131071 bytes, `d` is a first
line `L`, CR LF, every header followed by CR LF, CR LF once more and the content, with nothing
lost: the method is a prefix of `L`, the URI a part of it and the version a suffix of it, and
the length of `d` is `|L| + 2`, plus `|H| + 2` for every header `H`, plus 2, plus the content
length. -/
theorem C19_ParseRequest_loses_no_bytes (recv : Nat → RecvResult) (d : List Char)
    (r : HttpRequest) (hrecv : recv (BUF_SIZE - 1) = .ok d) (hlen : d.length ≤ BUF_SIZE - 1)
    (hok : ParseRequest recv = .request r) :
    ∃ L, d = L ++ CRLF ++ (r.headers_.map (fun h => h ++ CRLF)).flatten ++ CRLF ++ r.content_
      ∧ L ≠ [] ∧ ¬ CRLF <:+: L ∧ '\x00' ∉ L
      ∧ r.method_ <+: L ∧ r.request_uri_ <:+: L ∧ r.http_version_ <:+ L
      ∧ r.content_length_ = r.content_.length
      ∧ d.length = L.length + 2 + (r.headers_.map (fun h => h.length + 2)).sum + 2
          + r.content_length_ := by
  obtain ⟨L, Hs, body, hd, hall, he⟩ := ParseRequest_request_inv recv d r hrecv hok
  obtain ⟨hm, hu, hv, hh, hcl, hc⟩ := endOfHeader_request_fields _ _ _ _ _ _ he
  have hdl : d.length = L.length + 2 + ((Hs.map (fun h => h ++ CRLF)).flatten).length + 2
      + body.length := by
    have := congrArg List.length hd
    simp only [List.length_append, CRLF, List.length_cons, List.length_nil] at this ⊢
    omega
  have hcle := content_length_eq d.length
    (L.length + 2 + ((Hs.map (fun h => h ++ CRLF)).flatten).length + 2) (by omega)
    (by simp only [BUF_SIZE] at hlen; simp only [SIZE_MOD]; omega)
  rw [hcle] at hcl hc
  have hbody : r.content_ = body := by
    rw [hc]
    have e : d = (L ++ CRLF ++ (Hs.map (fun h => h ++ CRLF)).flatten ++ CRLF) ++ body := by
      rw [hd]
    have l : L.length + 2 + ((Hs.map (fun h => h ++ CRLF)).flatten).length + 2
        = (L ++ CRLF ++ (Hs.map (fun h => h ++ CRLF)).flatten ++ CRLF).length := by
      simp only [List.length_append, CRLF, List.length_cons, List.length_nil]
    have hdrop : d.drop (L.length + 2 + ((Hs.map (fun h => h ++ CRLF)).flatten).length + 2)
        = body := by
      rw [l]
      conv_lhs => rw [e]
      exact List.drop_left _ _
    rw [hdrop]
    exact List.take_of_length_le (by omega)
  have hLlen : L.length ≤ npos := by
    simp only [BUF_SIZE] at hlen
    simp only [npos]
    omega
  obtain ⟨hLne, hLnul, hLcr⟩ := hall L (List.mem_cons_self _ _)
  refine ⟨L, by rw [hh, hbody]; exact hd, hLne, hLcr, hLnul, ?_, ?_, ?_, ?_, ?_⟩
  · rw [hm]; exact List.take_prefix _ _
  · rw [hu]
    exact (List.take_prefix _ _).isInfix.trans (List.drop_suffix _ _).isInfix
  · rw [hv, List.take_of_length_le (by rw [List.length_drop]; omega)]
    exact List.drop_suffix _ _
  · rw [hcl, hbody]; omega
  · rw [hh, hcl, ← length_flatten_lines]; omega

/-- C19, on an input with one header and a body of two bytes. -/
theorem C19_ParseRequest_loses_no_bytes_witness :
    ∃ L, "GET / H\r\nA: b\r\n\r\nxy".toList
        = L ++ CRLF ++ ((["A: b".toList]).map (fun h => h ++ CRLF)).flatten ++ CRLF
          ++ "xy".toList
      ∧ "GET".toList <+: L ∧ "H".toList <:+ L := by
  obtain ⟨L, h1, _, _, _, h2, _, h3, _⟩ := C19_ParseRequest_loses_no_bytes
    (file_reader "GET / H\r\nA: b\r\n\r\nxy".toList) "GET / H\r\nA: b\r\n\r\nxy".toList
    ⟨"GET".toList, "/".toList, "H".toList, ["A: b".toList], "xy".toList, 2⟩
    (by decide) (by decide) (by decide)
  exact ⟨L, h1, h2, h3⟩

/-- C12: for a receive call that delivers at most 131071 bytes when it succeeds,
`ParseRequest` returns a request if and only if the call did succeed and the scanned text,
the received bytes cut at the first NUL, does not begin with CR LF and holds CR LF CR LF; in
every other case it returns null (it neither throws nor runs on). -/
theorem C12_ParseRequest_success_condition (recv : Nat → RecvResult)
    (hlen : ∀ d, recv (BUF_SIZE - 1) = .ok d → d.length ≤ BUF_SIZE - 1) :
    ((∃ r, ParseRequest recv = .request r)
      ↔ ∃ d, recv (BUF_SIZE - 1) = .ok d ∧ ¬ CRLF <+: c_str d ∧ CRLF ++ CRLF <:+: c_str d)
    ∧ ((¬ ∃ d, recv (BUF_SIZE - 1) = .ok d ∧ ¬ CRLF <+: c_str d ∧ CRLF ++ CRLF <:+: c_str d)
        → ParseRequest recv = .null) := by
  have hiff := ParseRequest_request_iff recv hlen
  refine ⟨hiff, ?_⟩
  intro hno
  cases hp : ParseRequest recv with
  | fuelExhausted => exact absurd hp (ParseRequest_total recv)
  | threw => exact absurd hp (ParseRequest_ne_threw recv hlen)
  | null => rfl
  | request r => exact absurd (hiff.mp ⟨r, hp⟩) hno

/-- C12, on an input with a blank line, on one with lines but no blank line, and on one with
a NUL before the blank line. -/
theorem C12_ParseRequest_success_condition_witness :
    (∃ r, ParseRequest (file_reader "GET / H\r\n\r\nxy".toList) = .request r)
    ∧ ParseRequest (file_reader "GET / H\r\nA: b\r\n".toList) = .null
    ∧ ParseRequest (file_reader "GET /\x00 H\r\n\r\nxy".toList) = .null :=
  ⟨(C12_ParseRequest_success_condition (file_reader "GET / H\r\n\r\nxy".toList)
      (fun d h => file_reader_length _ d _ h)).1.mpr
      ⟨"GET / H\r\n\r\nxy".toList, by decide, by decide, by decide⟩,
   (C12_ParseRequest_success_condition (file_reader "GET / H\r\nA: b\r\n".toList)
      (fun d h => file_reader_length _ d _ h)).2
      (by
        rintro ⟨d, hd, _, hb⟩
        have e : d = "GET / H\r\nA: b\r\n".toList := (RecvResult.ok.inj hd).symm.trans (by decide)
        rw [e] at hb
        exact absurd hb (by decide)),
   (C12_ParseRequest_success_condition (file_reader "GET /\x00 H\r\n\r\nxy".toList)
      (fun d h => file_reader_length _ d _ h)).2
      (by
        rintro ⟨d, hd, _, hb⟩
        have e : d = "GET /\x00 H\r\n\r\nxy".toList :=
          (RecvResult.ok.inj hd).symm.trans (by decide)
        rw [e] at hb
        exact absurd hb (by decide))⟩

/-! ## Claims on the senders, continued -/

/-- C14 fails on the code for a read that returns a negative value.  In `SendResponse` a read
that returns -1 is followed by a send call asked to send `(size_t)(-1)` bytes; in
`SendPartialResponse` a read that returns -1 after a first chunk `abc` is followed by a send
call of the 7 bytes still unsent, taken from the buffer, which still starts with `abc`.  After
a read that returns 0 both senders make one more send call, of length 0 (third and fourth
run). -/
theorem C14_send_call_after_failed_read :
    (SendResponse (traced scriptSys) 5 "type".toList 3
        (⟨[(-1, [])]⟩, [])).map (fun r => r.1.2.tail)
      = some [Event.read 131072 (-1) [], Event.send [] 18446744073709551615 (-1)]
    ∧ (SendPartialResponse (traced scriptSys) 5 "type".toList 20 0 9
        (⟨[(3, "abc".toList), (-1, [])]⟩, [])).map (fun r => r.1.2.tail)
      = some [Event.lseek 0, Event.read 131072 3 "abc".toList, Event.send "abc".toList 3 3,
          Event.read 131072 (-1) [], Event.send "abc".toList 7 7]
    ∧ (SendResponse (traced scriptSys) 5 "type".toList 3
        (⟨[(3, "abc".toList), (0, [])]⟩, [])).map (fun r => r.1.2.tail)
      = some [Event.read 131072 3 "abc".toList, Event.send "abc".toList 3 3,
          Event.read 131072 0 [], Event.send [] 0 0]
    ∧ (SendPartialResponse (traced scriptSys) 5 "type".toList 20 0 9
        (⟨[(3, "abc".toList), (0, [])]⟩, [])).map (fun r => r.1.2.tail)
      = some [Event.lseek 0, Event.read 131072 3 "abc".toList, Event.send "abc".toList 3 3,
          Event.read 131072 0 [], Event.send [] 0 0] := by
  decide

/-- C15: for every behaviour of the source and of the send function, and every range
`start <= end_` of `size_t` values, `SendPartialResponse` returns (within `end_ - start + 3`
tests of the loop condition); its calls are the send of the header block, the seek, and then
reads and body sends; the sizes of the body sends add up to at most `end_ - start + 1`, and
the count left unsent at the end is at most that too. -/
theorem C15_SendPartialResponse_body_bound {σ : Type} (sys : Sys σ) (w : σ)
    (type : List Char) (total start end_ fuel : Nat)
    (hse : start ≤ end_) (hend : end_ < SIZE_MOD) (hfuel : end_ - start + 3 ≤ fuel) :
    ∃ w2 hdr ret body ts,
      SendPartialResponse (traced sys) fuel type total start end_ (w, [])
        = some ((w2, Event.send hdr hdr.length ret :: Event.lseek (toSSizeT start) :: body), ts)
      ∧ handed body ≤ end_ - start + 1 ∧ ts ≤ end_ - start + 1 := by
  have hsub : subSizeT end_ start = end_ - start := subSizeT_of_le _ _ hse hend
  have hto : (subSizeT end_ start + 1) % SIZE_MOD ≤ end_ - start + 1 := by
    rw [hsub]; exact Nat.mod_le _ _
  have hlt : (subSizeT end_ start + 1) % SIZE_MOD < SIZE_MOD := Nat.mod_lt _ (by decide)
  unfold SendPartialResponse
  simp only [traced]
  obtain ⟨w2, ext, ts2, hrun, hh, hts⟩ := partialLoop_traced_bound sys fuel
    (sys.lseek (sys.send w
      (partialHeader type total start end_ ((subSizeT end_ start + 1) % SIZE_MOD))
      (partialHeader type total start end_ ((subSizeT end_ start + 1) % SIZE_MOD)).length).2
      (toSSizeT start))
    ([] ++ [Event.send ((partialHeader type total start end_
        ((subSizeT end_ start + 1) % SIZE_MOD)).take
        (partialHeader type total start end_ ((subSizeT end_ start + 1) % SIZE_MOD)).length)
      (partialHeader type total start end_ ((subSizeT end_ start + 1) % SIZE_MOD)).length
      (sys.send w
        (partialHeader type total start end_ ((subSizeT end_ start + 1) % SIZE_MOD))
        (partialHeader type total start end_
          ((subSizeT end_ start + 1) % SIZE_MOD)).length).1] ++ [Event.lseek (toSSizeT start)])
    [] ((subSizeT end_ start + 1) % SIZE_MOD) 1 hlt (Or.inl (by omega))
  simp only [traced] at hrun
  rw [hrun]
  refine ⟨w2, partialHeader type total start end_ ((subSizeT end_ start + 1) % SIZE_MOD),
    (sys.send w
      (partialHeader type total start end_ ((subSizeT end_ start + 1) % SIZE_MOD))
      (partialHeader type total start end_ ((subSizeT end_ start + 1) % SIZE_MOD)).length).1,
    ext, ts2, ?_, by omega, by omega⟩
  simp

/-- C15, on a source whose second read fails: the body sends are asked for 3 and 7 bytes of
the 10 requested. -/
theorem C15_SendPartialResponse_body_bound_witness :
    ∃ w2 hdr ret body ts,
      SendPartialResponse (traced scriptSys) 13 "type".toList 20 0 9
          (⟨[(3, "abc".toList), (-1, [])]⟩, [])
        = some ((w2, Event.send hdr hdr.length ret :: Event.lseek (toSSizeT 0) :: body), ts)
      ∧ handed body ≤ 9 - 0 + 1 ∧ ts ≤ 9 - 0 + 1 :=
  C15_SendPartialResponse_body_bound scriptSys ⟨[(3, "abc".toList), (-1, [])]⟩ "type".toList
    20 0 9 13 (by decide) (by decide) (by decide)

/-- C16 fails as stated: with length 2 on the source `XYZ` all three bytes are sent and the
counter ends at `2 ^ 64 - 1`, which is not between 0 and 2.  It also fails when a read fails:
with length 3 on a source that delivers `abc` and then returns -1, the three bytes are sent in
full and the counter ends at 1 (the pass after the failed read subtracts `(size_t)(-1)`). -/
theorem C16_SendResponse_counter_wraps :
    (SendResponse (fileSys (fun _ => BUF_SIZE)) 5 "type".toList 2
        ⟨"XYZ".toList, 0, []⟩).map (fun r => (r.1.snk, r.2))
      = some (("HTTP/1.0 200 OK\r\nContent-Type: type\r\nContent-Length: 2\r\n"
          ++ "Accept-Ranges: bytes\r\n\r\nXYZ").toList, 18446744073709551615)
    ∧ ¬ (18446744073709551615 ≤ 2)
    ∧ (SendResponse (traced scriptSys) 5 "type".toList 3
        (⟨[(3, "abc".toList), (-1, [])]⟩, [])).map (fun r => (accepted r.1.2.tail, r.2))
      = some ("abc".toList, 1) := by
  decide

/-- C16 as amended: on a source file that holds at most `length` bytes and whose reads do
not fail (every read delivers a positive number of the bytes that are left, or 0 at the end of
the source), whatever the send function answers, `SendResponse` returns and its counter
`to_send` plus the number of body bytes sent in full is `length`; so the counter is `length`
minus that number, it lies between 0 and `length`, nothing wraps, and it is non-zero exactly
when fewer than `length` body bytes were sent in full. -/
theorem C16_SendResponse_remaining_counter (chunk : Nat → Nat) (hchunk : ∀ p, 0 < chunk p)
    (answer : Nat → List Char → Nat → Int) (type s : List Char) (length fuel : Nat)
    (hcov : s.length ≤ length) (hlt : length < SIZE_MOD) (hfuel : s.length + 2 ≤ fuel) :
    ∃ w2 hdr ret body ts,
      SendResponse (traced (answerSys chunk answer)) fuel type length ((⟨s, 0, []⟩, 0), [])
        = some ((w2, Event.send hdr hdr.length ret :: body), ts)
      ∧ ts + (accepted body).length = length
      ∧ ts = length - (accepted body).length
      ∧ ts ≤ length
      ∧ (ts ≠ 0 ↔ (accepted body).length < length) := by
  unfold SendResponse
  simp only [traced, answerSys]
  obtain ⟨w2, ext, ts2, hrun, _, _, hts⟩ := sendLoop_answer chunk hchunk answer s fuel 0 []
    (0 + 1)
    ([] ++ [Event.send ((responseHeader type length).take (responseHeader type length).length)
      (responseHeader type length).length
      (answer 0 ((responseHeader type length).take (responseHeader type length).length)
        (responseHeader type length).length)])
    [] length 1 (by decide) (Nat.zero_le _) (by omega)
  simp only [traced, answerSys] at hrun
  rw [hrun]
  have h := hts (by omega) hlt
  refine ⟨w2, responseHeader type length,
    answer 0 (responseHeader type length) (responseHeader type length).length, ext, ts2,
    by simp, h, by omega, by omega, by omega⟩

/-- C16 as amended, on a source of 3 bytes with length 5 and a send function that takes
every byte: 2 is left. -/
theorem C16_SendResponse_remaining_counter_witness :
    ∃ w2 hdr ret body ts,
      SendResponse (traced (answerSys (fun _ => BUF_SIZE) (fun _ _ n => (n : Int)))) 5
          "type".toList 5 ((⟨"XYZ".toList, 0, []⟩, 0), [])
        = some ((w2, Event.send hdr hdr.length ret :: body), ts)
      ∧ ts + (accepted body).length = 5
      ∧ ts = 5 - (accepted body).length
      ∧ ts ≤ 5
      ∧ (ts ≠ 0 ↔ (accepted body).length < 5) :=
  C16_SendResponse_remaining_counter (fun _ => BUF_SIZE) (fun _ => (by decide : 0 < BUF_SIZE))
    (fun _ _ n => (n : Int)) "type".toList "XYZ".toList 5 5 (by decide) (by decide) (by decide)

/-- C17: on a source file, whatever the send function answers (within the range of
`ssize_t`), both `SendResponse` and `SendPartialResponse` return; the first call they make is
the one send of the whole header block, before any read; a body send call that is answered
with another count than it was asked to send is the last call made; and the header block
followed by the bytes of the body sends answered in full is a prefix of the header block
followed by the source (for `SendPartialResponse`: by the bytes `start .. end_` of the
source), which is what a run with every send answered in full writes. -/
theorem C17_senders_stop_at_short_send (chunk : Nat → Nat) (hchunk : ∀ p, 0 < chunk p)
    (answer : Nat → List Char → Nat → Int)
    (hans : ∀ i b n, n < 2 ^ 63 → -(2 ^ 63 : Int) ≤ answer i b n ∧ answer i b n < 2 ^ 63)
    (type s : List Char) (pos length start end_ fuel : Nat)
    (hse : start ≤ end_) (hend : end_ < s.length) (hsize : s.length < 2 ^ 63)
    (hfuel : s.length + 2 ≤ fuel) :
    (∃ w2 body ts,
      SendResponse (traced (answerSys chunk answer)) fuel type length ((⟨s, 0, []⟩, 0), [])
        = some ((w2, Event.send (responseHeader type length) (responseHeader type length).length
            (answer 0 (responseHeader type length) (responseHeader type length).length)
            :: body), ts)
      ∧ stopsAtShortSend body = true
      ∧ responseHeader type length ++ accepted body <+: responseHeader type length ++ s)
    ∧ (∃ w2 body ts,
      SendPartialResponse (traced (answerSys chunk answer)) fuel type length start end_
          ((⟨s, pos, []⟩, 0), [])
        = some ((w2, Event.send (partialHeader type length start end_ (end_ - start + 1))
            (partialHeader type length start end_ (end_ - start + 1)).length
            (answer 0 (partialHeader type length start end_ (end_ - start + 1))
              (partialHeader type length start end_ (end_ - start + 1)).length)
            :: Event.lseek (start : Int) :: body), ts)
      ∧ stopsAtShortSend body = true
      ∧ partialHeader type length start end_ (end_ - start + 1) ++ accepted body
          <+: partialHeader type length start end_ (end_ - start + 1)
            ++ (s.drop start).take (end_ - start + 1)) := by
  constructor
  · unfold SendResponse
    simp only [traced, answerSys]
    obtain ⟨w2, ext, ts2, hrun, hstop, hacc, _⟩ := sendLoop_answer chunk hchunk answer s fuel 0
      [] (0 + 1)
      ([] ++ [Event.send
        ((responseHeader type length).take (responseHeader type length).length)
        (responseHeader type length).length
        (answer 0 ((responseHeader type length).take (responseHeader type length).length)
          (responseHeader type length).length)])
      [] length 1 (by decide) (Nat.zero_le _) (by omega)
    simp only [traced, answerSys] at hrun
    rw [hrun]
    refine ⟨w2, ext, ts2, by simp, hstop, ?_⟩
    rw [List.drop_zero] at hacc
    exact (List.prefix_append_right_inj _).mpr hacc
  · have hM : SIZE_MOD = 18446744073709551616 := by decide
    have h63 : (2 ^ 63 : Nat) = 9223372036854775808 := by norm_num
    have hsub : subSizeT end_ start = end_ - start :=
      subSizeT_of_le _ _ hse (by omega)
    have hto : (subSizeT end_ start + 1) % SIZE_MOD = end_ - start + 1 := by
      rw [hsub]
      exact Nat.mod_eq_of_lt (by omega)
    have hoff : toSSizeT start = (start : Int) := by
      unfold toSSizeT
      have hm : start % SIZE_MOD = start := Nat.mod_eq_of_lt (by omega)
      rw [hm, if_pos (by omega)]
    have hnn : ¬ ((start : Int) < 0) := by omega
    unfold SendPartialResponse
    simp only [hto, hoff, traced, answerSys, fileSys, hnn, if_false, Int.toNat_ofNat]
    obtain ⟨w2, ext, ts2, hrun, hstop, hacc⟩ := partialLoop_answer chunk hchunk answer hans s
      fuel start [] (0 + 1)
      ([] ++ [Event.send
        ((partialHeader type length start end_ (end_ - start + 1)).take
          (partialHeader type length start end_ (end_ - start + 1)).length)
        (partialHeader type length start end_ (end_ - start + 1)).length
        (answer 0 ((partialHeader type length start end_ (end_ - start + 1)).take
            (partialHeader type length start end_ (end_ - start + 1)).length)
          (partialHeader type length start end_ (end_ - start + 1)).length)]
        ++ [Event.lseek (start : Int)])
      [] (end_ - start + 1) 1 (by decide) (by omega) (by omega) (by omega)
    simp only [traced, answerSys, fileSys] at hrun
    rw [hrun]
    refine ⟨w2, ext, ts2, by simp, hstop, ?_⟩
    exact (List.prefix_append_right_inj _).mpr hacc

/-- C17, on a source of 8 bytes read 3 at a time, where the third call of the send function
(the second body send) takes 1 byte of 3. -/
theorem C17_senders_stop_at_short_send_witness :
    ∃ w2 body ts,
      SendResponse (traced (answerSys (fun _ => 3) (fun i _ n => if i = 2 then 1 else (n : Int))))
          10 "t".toList 8 ((⟨"abcdefgh".toList, 0, []⟩, 0), [])
        = some ((w2, Event.send (responseHeader "t".toList 8) (responseHeader "t".toList 8).length
            ((fun i (_ : List Char) n => if i = 2 then 1 else (n : Int)) 0
              (responseHeader "t".toList 8) (responseHeader "t".toList 8).length)
            :: body), ts)
      ∧ stopsAtShortSend body = true
      ∧ responseHeader "t".toList 8 ++ accepted body
          <+: responseHeader "t".toList 8 ++ "abcdefgh".toList :=
  (C17_senders_stop_at_short_send (fun _ => 3) (fun _ => (by decide : 0 < 3))
    (fun i _ n => if i = 2 then 1 else (n : Int))
    (fun i _ n hn => by
      have h63 : (2 ^ 63 : Nat) = 9223372036854775808 := by norm_num
      have h63i : (2 ^ 63 : Int) = 9223372036854775808 := by norm_num
      rw [h63] at hn
      rw [h63i]
      show -9223372036854775808 ≤ (if i = 2 then (1 : Int) else (n : Int))
        ∧ (if i = 2 then (1 : Int) else (n : Int)) < 9223372036854775808
      split <;> omega)
    "t".toList "abcdefgh".toList 0 8 1 6 10 (by decide) (by decide) (by decide) (by decide)).1

end calvin
